import Mathlib

/-!
Verification of the Prompt_Editor export / filesystem-sync core.

Shallow embedding of `app/utils/export.py` and `app/utils/filesystem.py`.
Strings are modelled as `List Char`.  Python `re.sub` / `re.findall` calls
are translated as explicit left-to-right scanners that mirror the backtracking
behaviour of the patterns actually used in the source (non-greedy `(.+?)`,
greedy `\s*`, `MULTILINE` line anchors).  Scanners whose recursion is not
structural take an explicit fuel argument; the public wrapper instantiates the
fuel with the input length, which is always sufficient because every step of
the scan consumes at least one character.
-/

namespace PromptEditor

/-- Shorthand: characters of a string literal. -/
def cs (s : String) : List Char := s.toList

/-- Python's `\s` / `str.strip()` whitespace on ASCII text:
space, tab, newline, carriage return, vertical tab, form feed. -/
def isPySpace (c : Char) : Bool :=
  c = ' ' || c = '\t' || c = '\n' || c = '\r' || c = Char.ofNat 11 || c = Char.ofNat 12

/-- Test `leadsWith d l`: `d` is a leading run of `l` (regex literal match at the
current position). -/
def leadsWith : List Char → List Char → Bool
  | [], _ => true
  | _ :: _, [] => false
  | a :: as, b :: bs => a = b && leadsWith as bs

/-- Matcher for the non-greedy group-and-close part of `d(.+?)d`:
given the text right after the opening delimiter, try the shortest non-empty
run of non-newline characters followed by the literal `d`.  Returns the
captured group and the remainder after the closing delimiter. -/
def findClose (d : List Char) : List Char → Option (List Char × List Char)
  | [] => none
  | c :: rest =>
    if c = '\n' then none
    else if leadsWith d rest then some ([c], rest.drop d.length)
    else
      match findClose d rest with
      | some (g, r) => some (c :: g, r)
      | none => none

/-- One pass of `re.sub(d(.+?)d, \1, text)` (fueled scanner): at each position
try the open delimiter, then the lazy group, then the close delimiter; on a
match emit the group and resume after the close, otherwise copy one character
and advance.  Mirrors the emphasis and inline-code substitutions of
`markdown_to_text` (export.py lines 115-122). -/
def subEmphF (d : List Char) : Nat → List Char → List Char
  | 0, l => l
  | _ + 1, [] => []
  | fuel + 1, c :: rest =>
    if leadsWith d (c :: rest) then
      match findClose d ((c :: rest).drop d.length) with
      | some (g, r) => g ++ subEmphF d fuel r
      | none => c :: subEmphF d fuel rest
    else c :: subEmphF d fuel rest

def subEmph (d l : List Char) : List Char := subEmphF d l.length l

/-! ## markdown_to_text: headers pass

`re.sub(r'^#{1,6}\s*(.+)$', lambda m: m.group(1).upper(), text, flags=re.MULTILINE)`.
`\s*` is greedy and may also consume newlines; `.` never matches a newline and
`$` holds at the end of the text or just before a newline.  The matcher below
reproduces the engine's backtracking order: longest `\s*` first, then the
greedy `(.+)`; the `#{1,6}` repetition backtracks from the largest count. -/

/-- Matcher for `(.+)$` at the current position: a maximal non-empty run of non-newline
characters (after which `$` necessarily holds). -/
def matchDotPlus (l : List Char) : Option (List Char × List Char) :=
  let t := l.takeWhile (fun c => c ≠ '\n')
  if t.isEmpty then none else some (t, l.drop t.length)

/-- Matcher for `\s*(.+)$` with a greedy `\s*`: prefer consuming the whitespace character
into `\s*`; fall back to starting the dot group at it. -/
def matchWsDot : List Char → Option (List Char × List Char)
  | [] => none
  | c :: r =>
    if isPySpace c then
      match matchWsDot r with
      | some p => some p
      | none => matchDotPlus (c :: r)
    else matchDotPlus (c :: r)

/-- Backtracking for `#{1,6}`: try `n` leading hash marks (largest first), then
`\s*(.+)$` on the remainder. -/
def tryHash (l : List Char) : Nat → Option (List Char × List Char)
  | 0 => none
  | n + 1 =>
    match matchWsDot (l.drop (n + 1)) with
    | some p => some p
    | none => tryHash l n

/-- Fueled scanner for the header pass; the Bool tracks whether the current
position is at a line start (where `^` matches). -/
def subHeadersF : Bool → Nat → List Char → List Char
  | _, 0, l => l
  | _, _ + 1, [] => []
  | atStart, fuel + 1, c :: rest =>
    if atStart ∧ c = '#' then
      match tryHash (c :: rest) (min ((c :: rest).takeWhile (· = '#')).length 6) with
      | some (g, r) => g.map Char.toUpper ++ subHeadersF false fuel r
      | none => c :: subHeadersF false fuel rest
    else c :: subHeadersF (c == '\n') fuel rest

def headersPass (l : List Char) : List Char := subHeadersF true l.length l

/-! ## markdown_to_text: emphasis and inline-code passes (export.py 115-122) -/

def emphasisPasses (l : List Char) : List Char :=
  subEmph ['_'] (subEmph ['_', '_'] (subEmph ['*']
    (subEmph ['*', '*'] (subEmph ['*', '*', '*'] l))))

def inlineCodePass (l : List Char) : List Char :=
  subEmph [Char.ofNat 96] l

/-! ## markdown_to_text: fenced code-block delimiter passes (export.py 125-126) -/

/-- Text after the first newline, if one exists (the lazy `.*?\n`). -/
def findNl (l : List Char) : Option (List Char) :=
  match l.dropWhile (fun c => c ≠ '\n') with
  | '\n' :: r => some r
  | _ => none

/-- Pass `re.sub(r'^```.*?\n', '', text, flags=re.MULTILINE)`: delete every
line-start fence marker together with the rest of its line and the newline. -/
def fencesOpenF : Bool → Nat → List Char → List Char
  | _, 0, l => l
  | _, _ + 1, [] => []
  | atStart, fuel + 1, c :: rest =>
    if atStart ∧ leadsWith [Char.ofNat 96, Char.ofNat 96, Char.ofNat 96] (c :: rest) then
      match findNl ((c :: rest).drop 3) with
      | some r => fencesOpenF true fuel r
      | none => c :: fencesOpenF false fuel rest
    else c :: fencesOpenF (c == '\n') fuel rest

def fencesOpenPass (l : List Char) : List Char := fencesOpenF true l.length l

/-- Pass `re.sub(r'^```$', '', text, flags=re.MULTILINE)`: delete a line that is
exactly the fence marker (its newline, if any, is not part of the match). -/
def fencesCloseF : Bool → Nat → List Char → List Char
  | _, 0, l => l
  | _, _ + 1, [] => []
  | atStart, fuel + 1, c :: rest =>
    if atStart ∧ leadsWith [Char.ofNat 96, Char.ofNat 96, Char.ofNat 96] (c :: rest) ∧
        ((c :: rest).drop 3 = [] ∨ ((c :: rest).drop 3).head? = some '\n') then
      fencesCloseF false fuel ((c :: rest).drop 3)
    else c :: fencesCloseF (c == '\n') fuel rest

def fencesClosePass (l : List Char) : List Char := fencesCloseF true l.length l

/-! ## markdown_to_text: link pass (export.py 129) -/

/-- Pass `re.sub(r'\[([^\]]+)\]\(([^)]+)\)', r'\1 (\2)', text)`: the negated
classes are greedy and may span newlines; label and url must be non-empty. -/
def linksF : Nat → List Char → List Char
  | 0, l => l
  | _ + 1, [] => []
  | fuel + 1, c :: rest =>
    if c = '[' then
      match rest.takeWhile (· ≠ ']'), rest.drop (rest.takeWhile (· ≠ ']')).length with
      | label@(_ :: _), ']' :: '(' :: r₂ =>
        match r₂.takeWhile (· ≠ ')'), r₂.drop (r₂.takeWhile (· ≠ ')')).length with
        | url@(_ :: _), ')' :: r₃ =>
          label ++ ' ' :: '(' :: (url ++ ')' :: linksF fuel r₃)
        | _, _ => c :: linksF fuel rest
      | _, _ => c :: linksF fuel rest
    else c :: linksF fuel rest

def linksPass (l : List Char) : List Char := linksF l.length l

/-! ## markdown_to_text: blockquote pass (export.py 132) -/

/-- Pass `re.sub(r'^>\s*(.+)$', r'"\1"', text, flags=re.MULTILINE)`. -/
def quoteF : Bool → Nat → List Char → List Char
  | _, 0, l => l
  | _, _ + 1, [] => []
  | atStart, fuel + 1, c :: rest =>
    if atStart ∧ c = '>' then
      match matchWsDot rest with
      | some (g, r) => '"' :: (g ++ '"' :: quoteF false fuel r)
      | none => c :: quoteF false fuel rest
    else c :: quoteF (c == '\n') fuel rest

def quotePass (l : List Char) : List Char := quoteF true l.length l

/-! ## markdown_to_text: unordered-list pass (export.py 135) -/

/-- Matcher for `\s+(.+)$`: one mandatory whitespace character, then `\s*(.+)$`. -/
def matchWsPlusDot : List Char → Option (List Char × List Char)
  | [] => none
  | c :: r => if isPySpace c then matchWsDot r else none

/-- Pass `re.sub(r'^[\*\-\+]\s+(.+)$', r'• \1', text, flags=re.MULTILINE)`. -/
def ulistF : Bool → Nat → List Char → List Char
  | _, 0, l => l
  | _, _ + 1, [] => []
  | atStart, fuel + 1, c :: rest =>
    if atStart ∧ (c = '*' ∨ c = '-' ∨ c = '+') then
      match matchWsPlusDot rest with
      | some (g, r) => '•' :: ' ' :: (g ++ ulistF false fuel r)
      | none => c :: ulistF false fuel rest
    else c :: ulistF (c == '\n') fuel rest

def ulistPass (l : List Char) : List Char := ulistF true l.length l

/-! ## markdown_to_text: ordered-list pass (export.py 138-143)

`re.sub(r'^\d+\.\s+(.+)$', lambda m: f'...group(0)...', text, flags=re.MULTILINE)`
replaces every match by `m.group(0)`, i.e. by the matched text itself, so the
pass returns its input unchanged. -/
def olistPass (l : List Char) : List Char := l

/-! ## markdown_to_text: horizontal-rule pass (export.py 146) -/

def isRuleChar (c : Char) : Bool := c = '-' || c = '*' || c = '_'

/-- Pass `re.sub(r'^[\-\*_]{3,}$', '', text, flags=re.MULTILINE)`: delete a line
made of three or more rule characters (the match stops before the newline). -/
def hrF : Bool → Nat → List Char → List Char
  | _, 0, l => l
  | _, _ + 1, [] => []
  | atStart, fuel + 1, c :: rest =>
    if atStart ∧ 3 ≤ ((c :: rest).takeWhile isRuleChar).length ∧
        ((c :: rest).drop ((c :: rest).takeWhile isRuleChar).length = [] ∨
          ((c :: rest).drop ((c :: rest).takeWhile isRuleChar).length).head? = some '\n') then
      hrF false fuel ((c :: rest).drop ((c :: rest).takeWhile isRuleChar).length)
    else c :: hrF (c == '\n') fuel rest

def hrPass (l : List Char) : List Char := hrF true l.length l

/-! ## markdown_to_text: blank-line cleanup (export.py 149)

`re.sub(r'\n\s*\n\s*\n', '\n\n', text)` with greedy `\s*`. -/

/-- Greedy `\s*\n`: consume whitespace as long as possible, backtracking so
that the final character matched is a newline. -/
def greedySpaceNl : List Char → Option (List Char)
  | [] => none
  | c :: rest =>
    if isPySpace c then
      match greedySpaceNl rest with
      | some r => some r
      | none => if c = '\n' then some rest else none
    else none

/-- Greedy `\s*\n\s*\n` (what must follow the leading `\n` of the pattern). -/
def matchSnSn : List Char → Option (List Char)
  | [] => none
  | c :: rest =>
    if isPySpace c then
      match matchSnSn rest with
      | some r => some r
      | none => if c = '\n' then greedySpaceNl rest else none
    else none

def cleanupF : Nat → List Char → List Char
  | 0, l => l
  | _ + 1, [] => []
  | fuel + 1, c :: rest =>
    if c = '\n' then
      match matchSnSn rest with
      | some r => '\n' :: '\n' :: cleanupF fuel r
      | none => c :: cleanupF fuel rest
    else c :: cleanupF fuel rest

def cleanupPass (l : List Char) : List Char := cleanupF l.length l

/-! ## markdown_to_text: final strip (export.py 152) and the full chain -/

/-- Python `str.strip()` on ASCII text. -/
def pyStrip (l : List Char) : List Char :=
  ((l.dropWhile isPySpace).reverse.dropWhile isPySpace).reverse

/-- Function `markdown_to_text` (export.py 87-154): the ordered rewrite chain.
Empty input returns the empty string (`if not markdown_content`). -/
def markdown_to_text (l : List Char) : List Char :=
  if l.isEmpty then []
  else
    pyStrip (cleanupPass (hrPass (olistPass (ulistPass (quotePass
      (linksPass (fencesClosePass (fencesOpenPass
        (inlineCodePass (emphasisPasses (headersPass l)))))))))))

/-! ## sanitize_filename (export.py 157-188) -/

def isInvalidFileChar (c : Char) : Bool :=
  c = '<' || c = '>' || c = ':' || c = '"' || c = '/' ||
  c = '\\' || c = '|' || c = '?' || c = '*'

/-- Pass `re.sub(r'[<>:"/\\|?*]', '_', filename)`. -/
def replaceInvalid (l : List Char) : List Char :=
  l.map (fun c => if isInvalidFileChar c then '_' else c)

/-- Pass `re.sub(r'_{2,}', '_', filename)`: collapse runs of underscores to one. -/
def collapseUnderscores : List Char → List Char
  | [] => []
  | [c] => [c]
  | c :: d :: rest =>
    if c = '_' ∧ d = '_' then collapseUnderscores (d :: rest)
    else c :: collapseUnderscores (d :: rest)

/-- Python `str.strip(bad)`: drop characters of `bad` from both ends. -/
def stripChars (bad l : List Char) : List Char :=
  ((l.dropWhile (bad.contains ·)).reverse.dropWhile (bad.contains ·)).reverse

/-- Function `sanitize_filename` (export variant): replace invalid characters, collapse
underscores, strip `_` and space, default to `untitled`, cap at 100. -/
def sanitize_filename (l : List Char) : List Char :=
  let f₁ := replaceInvalid l
  let f₂ := collapseUnderscores f₁
  let f₃ := stripChars (cs "_ ") f₂
  let f₄ := if f₃.isEmpty then cs "untitled" else f₃
  if 100 < f₄.length then f₄.take 100 else f₄

/-! ## get_export_stats: the `lists` field (export.py 224)

`len(re.findall(r'^[\*\-\+\d+\.]\s', content, re.MULTILINE))`.  The bracket
expression is a character class: one character among `* - + . digit`,
followed by one `\s` character (which may be the newline ending the line). -/

def isListMarkClass (c : Char) : Bool :=
  c = '*' || c = '-' || c = '+' || c = '.' || c.isDigit

/-- Scanner for the findall count; the Bool tracks the `^` line-start flag.
A match consumes its two characters; scanning resumes after them. -/
def listsCountAux : Bool → List Char → Nat
  | _, [] => 0
  | _, [_] => 0
  | atStart, c :: w :: rest =>
    if atStart ∧ isListMarkClass c ∧ isPySpace w then
      1 + listsCountAux (w == '\n') rest
    else listsCountAux (c == '\n') (w :: rest)

def listsCount (l : List Char) : Nat := listsCountAux true l

/-- Python `str.split('\n')`. -/
def pyLines : List Char → List (List Char)
  | [] => [[]]
  | c :: rest =>
    if c = '\n' then [] :: pyLines rest
    else
      match pyLines rest with
      | ln :: lns => (c :: ln) :: lns
      | [] => [[c]]

/-- Claimed behaviour, modelled from the spec's words (not from the source),
for comparison: an unordered list line starts with `*`, `-` or `+` followed
by whitespace. -/
def isUnorderedLine (ln : List Char) : Bool :=
  match ln with
  | c :: w :: _ => (c = '*' || c = '-' || c = '+') && isPySpace w
  | _ => false

/-- Claimed behaviour, modelled from the spec's words (not from the source):
an ordered list line starts with digits, then a period, then whitespace. -/
def isOrderedLine (ln : List Char) : Bool :=
  match ln.takeWhile (·.isDigit), ln.drop (ln.takeWhile (·.isDigit)).length with
  | _ :: _, '.' :: w :: _ => isPySpace w
  | _, _ => false

/-- The count the claim describes: unordered plus ordered list lines. -/
def claimedListsCount (l : List Char) : Nat :=
  (pyLines l).countP (fun ln => isUnorderedLine ln || isOrderedLine ln)

/-- What the source's findall actually counts, phrased per line: the first
character is in the class and the second is whitespace; a one-character line
in the class also counts when it is not the last line (its terminating
newline is the `\s`). -/
def lineHasCodeListMark (isLast : Bool) (ln : List Char) : Bool :=
  match ln with
  | [] => false
  | [c] => isListMarkClass c && !isLast
  | c :: w :: _ => isListMarkClass c && isPySpace w

def amendedListsCount : List (List Char) → Nat
  | [] => 0
  | [ln] => if lineHasCodeListMark true ln then 1 else 0
  | ln :: lns => (if lineHasCodeListMark false ln then 1 else 0) + amendedListsCount lns

/-- Count over all lines but the first (used to track the scanner when it is
not at a line start). -/
def tailCount : List (List Char) → Nat
  | [] => 0
  | [_] => 0
  | _ :: lns => amendedListsCount lns

/-! ## export_to_markdown (export.py 16-48) -/

structure TemplateView where
  title : List Char
  description : Option (List Char)
  createdS : List Char
  updatedS : List Char
  folderName : Option (List Char)
  isFavorite : Bool
  content : List Char
deriving DecidableEq

def pyOrEmpty : Option (List Char) → List Char
  | none => []
  | some d => d

def boolLower : Bool → List Char
  | true => cs "true"
  | false => cs "false"

/-- The f-string front-matter block of `export_to_markdown`; the timestamp
strings are passed in pre-formatted (the code formats them with `strftime`).
-/
def mkFrontMatter (t : TemplateView) (nowS : List Char) : List Char :=
  cs "---\ntitle: \"" ++ t.title ++
  cs "\"\ndescription: \"" ++ pyOrEmpty t.description ++
  cs "\"\ncreated: " ++ t.createdS ++
  cs "\nupdated: " ++ t.updatedS ++
  cs "\nfolder: \"" ++ (match t.folderName with | some n => n | none => cs "Root") ++
  cs "\"\nfavorite: " ++ boolLower t.isFavorite ++
  cs "\nexported: " ++ nowS ++
  cs "\n---\n\n"

/-- Function `export_to_markdown`: front matter, then the content, prefixed by a
synthesized heading when `content.strip()` does not start with `#`. -/
def export_to_markdown (t : TemplateView) (nowS : List Char) : List Char :=
  let content :=
    if (pyStrip t.content).head? = some '#' then t.content
    else cs "# " ++ t.title ++ cs "\n\n" ++ t.content
  mkFrontMatter t nowS ++ content

/-! ## filesystem.py: sanitizers (lines 30-83) -/

def reservedNames : List (List Char) :=
  [cs "con", cs "prn", cs "aux", cs "nul", cs "com1", cs "com2", cs "com3",
   cs "com4", cs "com5", cs "com6", cs "com7", cs "com8", cs "com9",
   cs "lpt1", cs "lpt2", cs "lpt3", cs "lpt4", cs "lpt5", cs "lpt6",
   cs "lpt7", cs "lpt8", cs "lpt9"]

def lowerList (l : List Char) : List Char := l.map Char.toLower

/-- Function `sanitize_folder_name`; `nowS` stands for the timestamp string
`datetime.now().strftime('%Y%m%d_%H%M%S')` at call time. -/
def sanitize_folder_name (nowS l : List Char) : List Char :=
  let s₁ := collapseUnderscores (replaceInvalid l)
  let s₂ := stripChars (cs "_ .") s₁
  if s₂.isEmpty || reservedNames.contains (lowerList s₂) then
    cs "folder_" ++ nowS
  else s₂

/-- Function `sanitize_template_filename`; same timestamp convention. -/
def sanitize_template_filename (nowS l : List Char) : List Char :=
  let s₁ := collapseUnderscores (replaceInvalid l)
  let s₂ := stripChars (cs "_ .") s₁
  if s₂.isEmpty then cs "template_" ++ nowS else s₂

/-! ## filesystem.py: sync_database_to_filesystem (lines 233-265)

A path is the list of directory-name segments below the user templates
directory (`get_user_templates_dir()`), the root being the empty list.
The `folder_paths` dict is an association list where the latest assignment
is the first match. -/

abbrev Path : Type := List (List Char)

def rootDir : Path := []

structure FolderRec where
  id : Nat
  name : List Char
  parent : Option Nat
deriving DecidableEq

abbrev FMap : Type := List (Nat × Path)

def fmInsert (m : FMap) (k : Nat) (v : Path) : FMap := (k, v) :: m

def fmLookup (m : FMap) (k : Nat) : Option Path :=
  (List.find? (fun p => p.1 = k) m).map (·.2)

/-- Body of the first loop: create a directory for a folder with no parent
and record it. -/
def rootStep (nowS : List Char) (m : FMap) (f : FolderRec) : FMap :=
  match f.parent with
  | none => fmInsert m f.id (rootDir ++ [sanitize_folder_name nowS f.name])
  | some _ => m

/-- First loop: create directories for folders with no parent. -/
def syncRootFolders (nowS : List Char) (folders : List FolderRec) : FMap :=
  folders.foldl (rootStep nowS) []

/-- Body of the second loop: create a directory for a folder whose parent id
is already recorded in `folder_paths`. -/
def childStep (nowS : List Char) (m : FMap) (f : FolderRec) : FMap :=
  match f.parent with
  | some p =>
    match fmLookup m p with
    | some pp => fmInsert m f.id (pp ++ [sanitize_folder_name nowS f.name])
    | none => m
  | none => m

/-- Second loop: one pass creating directories for folders whose parent id is
already recorded in `folder_paths`. -/
def syncChildFolders (nowS : List Char) (folders : List FolderRec) (m₀ : FMap) :
    FMap :=
  folders.foldl (childStep nowS) m₀

def syncFolderPhase (nowS : List Char) (folders : List FolderRec) : FMap :=
  syncChildFolders nowS folders (syncRootFolders nowS folders)

structure TemplateRec where
  title : List Char
  content : List Char
  folder_id : Option Nat
deriving DecidableEq

/-- Target directory of a template: `if template.folder_id and
template.folder_id in folder_paths` — note Python truthiness sends a folder
id of 0 to the root as well. -/
def templateDir (m : FMap) (t : TemplateRec) : Path :=
  match t.folder_id with
  | some fid =>
    if fid = 0 then rootDir
    else
      match fmLookup m fid with
      | some p => p
      | none => rootDir
  | none => rootDir

/-- File written by `save_template_to_disk`: name and content.  `nowS` and
`nowIso` stand for the timestamp strings at call time. -/
def writeOf (m : FMap) (nowS nowIso : List Char) (t : TemplateRec) :
    Path × List Char :=
  (templateDir m t ++ [sanitize_template_filename nowS t.title ++ cs ".md"],
   cs "---\ntitle: " ++ t.title ++ cs "\ncreated: " ++ nowIso ++ cs "\n---\n\n"
     ++ t.content)

/-- The template loop of `sync_database_to_filesystem` when every write
succeeds: one file per template, in order. -/
def syncTemplatesWrites (m : FMap) (nowS nowIso : List Char)
    (ts : List TemplateRec) : List (Path × List Char) :=
  ts.map (writeOf m nowS nowIso)

/-- The template loop with a failure oracle: `save_template_to_disk` is not
wrapped in try/except inside the loop, so a raised write error propagates and
the loop stops.  Returns the writes performed and whether it aborted. -/
def syncTemplatesRun (m : FMap) (nowS nowIso : List Char)
    (failsOn : TemplateRec → Bool) : List TemplateRec →
    List (Path × List Char) × Bool
  | [] => ([], false)
  | t :: rest =>
    if failsOn t then ([], true)
    else
      let res := syncTemplatesRun m nowS nowIso failsOn rest
      (writeOf m nowS nowIso t :: res.1, res.2)

/-- A folder id is rooted when some folder of the list carries it and its
parent chain resolves, through folders of the list, to a parentless folder. -/
inductive Rooted (fs : List FolderRec) : Nat → Prop where
  | isRoot : ∀ f, f ∈ fs → f.parent = none → Rooted fs f.id
  | isChild : ∀ f p, f ∈ fs → f.parent = some p → Rooted fs p → Rooted fs f.id

/-- Every non-root folder's parent id occurs earlier in the list. -/
def parentsPrecede (seen : List Nat) : List FolderRec → Bool
  | [] => true
  | f :: rest =>
    (match f.parent with
     | none => true
     | some p => seen.contains p) && parentsPrecede (f.id :: seen) rest

/-- A run of blank lines, each made of spaces/tabs and ended by a newline. -/
def blankJoin (wsl : List (List Char)) : List Char :=
  (wsl.map (· ++ ['\n'])).join

/-! ## Predicates used by the idempotence claim -/

/-- No blank-line-collapse match anywhere in the text. -/
def noMatch : List Char → Bool
  | [] => true
  | c :: r => (if c = '\n' then (matchSnSn r).isNone else true) && noMatch r

/-- Newlines in the leading whitespace run. -/
def nlLead (l : List Char) : Nat := (l.takeWhile isPySpace).count '\n'

/-- Every line-start suffix avoids the given trigger shape. -/
def lineStartsAvoid (bad : List Char → Bool) : Bool → List Char → Bool
  | _, [] => true
  | b, c :: r => (!b || !bad (c :: r)) && lineStartsAvoid bad (c == '\n') r

def quoteBad (l : List Char) : Bool := l.head? == some '>'

def ulistBad (l : List Char) : Bool :=
  match l with
  | c :: w :: _ => (c = '-' || c = '+') && isPySpace w
  | _ => false

def hrBad (l : List Char) : Bool :=
  3 ≤ (l.takeWhile isRuleChar).length &&
    ((l.drop (l.takeWhile isRuleChar).length).isEmpty ||
      (l.drop (l.takeWhile isRuleChar).length).head? == some '\n')

/-- The markers whose absence the idempotence claim requires: no `#`, `*`,
backtick, underscore or `[` characters, no blockquote line, no unordered-list
line, no horizontal-rule line. -/
def noMarkers (l : List Char) : Bool :=
  !l.contains '#' && !l.contains '*' && !l.contains (Char.ofNat 96) &&
  !l.contains '_' && !l.contains '[' &&
  lineStartsAvoid quoteBad true l &&
  lineStartsAvoid ulistBad true l &&
  lineStartsAvoid hrBad true l

/-! ## Theorems -/

theorem leadsWith_length {d l : List Char} (h : leadsWith d l = true) :
    d.length ≤ l.length := by
  induction d generalizing l with
  | nil => simp
  | cons a as ih =>
    cases l with
    | nil => simp [leadsWith] at h
    | cons b bs =>
      simp only [leadsWith, Bool.and_eq_true] at h
      simpa [List.length_cons] using Nat.succ_le_succ (ih h.2)

theorem leadsWith_head {a : Char} {as : List Char} {c : Char} {r : List Char}
    (h : leadsWith (a :: as) (c :: r) = true) : a = c := by
  simp only [leadsWith, Bool.and_eq_true, decide_eq_true_eq] at h
  exact h.1

theorem findClose_length {d : List Char} :
    ∀ {l g r : List Char}, findClose d l = some (g, r) → r.length < l.length := by
  intro l
  induction l with
  | nil => intro g r h; simp [findClose] at h
  | cons c rest ih =>
    intro g r h
    simp only [findClose] at h
    split at h
    · exact absurd h (by simp)
    · split at h
      · rename_i hpre
        have hd : d.length ≤ rest.length := leadsWith_length hpre
        simp only [Option.some.injEq, Prod.mk.injEq] at h
        have : r = rest.drop d.length := h.2.symm
        subst this
        simp only [List.length_drop, List.length_cons]
        omega
      · rename_i hnp
        revert h
        match hfc : findClose d rest with
        | some (g', r') =>
          intro h
          simp only [Option.some.injEq, Prod.mk.injEq] at h
          have hr : r = r' := h.2.symm
          subst hr
          exact Nat.lt_trans (ih hfc) (by simp)
        | none => intro h; simp at h

/-- Fuel irrelevance for `subEmphF`, as long as the fuel covers the length. -/
theorem subEmphF_congr (d : List Char) :
    ∀ (f₁ f₂ : Nat) (l : List Char), l.length ≤ f₁ → l.length ≤ f₂ →
      subEmphF d f₁ l = subEmphF d f₂ l := by
  intro f₁
  induction f₁ with
  | zero =>
    intro f₂ l h₁ _
    have : l = [] := List.length_eq_zero.mp (Nat.le_zero.mp h₁)
    subst this
    cases f₂ <;> simp [subEmphF]
  | succ f₁ ih =>
    intro f₂ l h₁ h₂
    cases l with
    | nil => cases f₂ <;> simp [subEmphF]
    | cons c rest =>
      cases f₂ with
      | zero => simp at h₂
      | succ f₂ =>
        simp only [subEmphF]
        split
        · rename_i hpre
          match hfc : findClose d ((c :: rest).drop d.length) with
          | some (g, r) =>
            have hr : r.length < rest.length + 1 := by
              have := findClose_length hfc
              simp only [List.length_drop, List.length_cons] at this
              omega
            simp only [List.length_cons] at h₁ h₂
            dsimp only
            rw [ih f₂ r (by omega) (by omega)]
          | none =>
            simp only [List.length_cons] at h₁ h₂
            dsimp only
            rw [ih f₂ rest (by omega) (by omega)]
        · simp only [List.length_cons] at h₁ h₂
          rw [ih f₂ rest (by omega) (by omega)]

theorem leadsWith_append_nl {d : List Char} (hd : '\n' ∉ d) :
    ∀ (x y : List Char), leadsWith d (x ++ '\n' :: y) = leadsWith d x := by
  induction d with
  | nil => intro x y; simp [leadsWith]
  | cons a as ih =>
    intro x y
    cases x with
    | nil =>
      have ha : a ≠ '\n' := fun h => hd (h ▸ List.mem_cons_self a as)
      simp [leadsWith, ha]
    | cons b bs =>
      have hd' : '\n' ∉ as := fun h => hd (List.mem_cons_of_mem a h)
      simp only [List.cons_append, leadsWith, List.append_eq]
      rw [ih hd' bs y]

theorem findClose_append_nl {d : List Char} (hd : '\n' ∉ d) :
    ∀ (x y : List Char),
      findClose d (x ++ '\n' :: y) =
        (findClose d x).map (fun p => (p.1, p.2 ++ '\n' :: y)) := by
  intro x
  induction x with
  | nil =>
    intro y
    simp [findClose]
  | cons c xs ih =>
    intro y
    simp only [List.cons_append, findClose, List.append_eq]
    by_cases hc : c = '\n'
    · simp [hc]
    · simp only [if_neg hc]
      rw [leadsWith_append_nl hd xs y]
      by_cases hp : leadsWith d xs = true
      · have hlen : d.length ≤ xs.length := leadsWith_length hp
        simp only [hp, if_true]
        rw [List.drop_append_eq_append_drop]
        have : d.length - xs.length = 0 := Nat.sub_eq_zero_of_le hlen
        simp [this]
      · simp only [eq_false_of_ne_true hp, if_false, Bool.false_eq_true]
        rw [ih y]
        match hfc : findClose d xs with
        | some (g, r) => simp
        | none => simp

/-- The emphasis/inline-code substitution never matches across a newline:
it distributes over line boundaries. -/
theorem subEmphF_append_nl {d : List Char} (hd : '\n' ∉ d) (hne : d ≠ []) :
    ∀ (fuel f₁ f₂ : Nat) (x y : List Char), (x ++ '\n' :: y).length ≤ fuel →
      x.length ≤ f₁ → y.length ≤ f₂ →
      subEmphF d fuel (x ++ '\n' :: y) =
        subEmphF d f₁ x ++ '\n' :: subEmphF d f₂ y := by
  intro fuel
  induction fuel with
  | zero => intro f₁ f₂ x y h _ _; simp at h
  | succ fuel ih =>
    intro f₁ f₂ x y h h₁ h₂
    cases x with
    | nil =>
      obtain ⟨a, as, rfl⟩ : ∃ a as, d = a :: as := by
        cases d with
        | nil => exact absurd rfl hne
        | cons a as => exact ⟨a, as, rfl⟩
      have ha : a ≠ '\n' := fun hh => hd (hh ▸ List.mem_cons_self a as)
      simp only [List.nil_append, subEmphF, leadsWith]
      have hfalse : (a = '\n') = False := by simp [ha]
      simp only [hfalse, decide_False, Bool.false_and, Bool.false_eq_true, if_false]
      have hnil : subEmphF (a :: as) f₁ [] = [] := by
        cases f₁ <;> simp [subEmphF]
      rw [hnil]
      simp only [List.nil_append, List.cons.injEq, true_and]
      have hy : y.length ≤ fuel := by simp at h; omega
      exact subEmphF_congr _ fuel f₂ y hy h₂
    | cons c xs =>
      cases f₁ with
      | zero => simp at h₁
      | succ f₁ =>
        have hsplit : (c :: xs) ++ '\n' :: y = c :: (xs ++ '\n' :: y) := by simp
        rw [hsplit]
        simp only [subEmphF]
        have hlw : leadsWith d (c :: (xs ++ '\n' :: y)) = leadsWith d (c :: xs) := by
          have := leadsWith_append_nl hd (c :: xs) y
          simpa using this
        rw [hlw]
        simp only [List.length_append, List.length_cons] at h
        simp only [List.length_cons] at h₁
        by_cases hp : leadsWith d (c :: xs) = true
        · simp only [hp, if_true]
          have hdl : d.length ≤ (c :: xs).length := leadsWith_length hp
          have hdrop : (c :: (xs ++ '\n' :: y)).drop d.length =
              ((c :: xs).drop d.length) ++ '\n' :: y := by
            rw [← hsplit, List.drop_append_eq_append_drop,
              Nat.sub_eq_zero_of_le hdl]
            simp
          rw [hdrop, findClose_append_nl hd]
          match hfc : findClose d ((c :: xs).drop d.length) with
          | some (g, r) =>
            dsimp only [Option.map_some']
            have hr : r.length < xs.length + 1 := by
              have := findClose_length hfc
              simp only [List.length_drop, List.length_cons] at this
              omega
            rw [ih f₁ f₂ r y (by simp; omega) (by omega) h₂]
            simp
          | none =>
            dsimp only [Option.map_none']
            rw [ih f₁ f₂ xs y (by simp; omega) (by omega) h₂]
            simp
        · simp only [eq_false_of_ne_true hp, if_false, Bool.false_eq_true]
          rw [ih f₁ f₂ xs y (by simp; omega) (by omega) h₂]
          simp

theorem subEmph_append_nl {d : List Char} (hd : '\n' ∉ d) (hne : d ≠ [])
    (x y : List Char) :
    subEmph d (x ++ '\n' :: y) = subEmph d x ++ '\n' :: subEmph d y := by
  unfold subEmph
  exact subEmphF_append_nl hd hne _ _ _ x y (le_refl _) (le_refl _) (le_refl _)

/-! ## Claim C4 -/

/-- C4: the Markdown Degrader's emphasis-removal passes (`***`, `**`, `*`,
`__`, `_`) match non-greedily and only within a single line: the pass chain
distributes over every newline (no multi-line matches), so when both sides of
a newline are individually left unchanged by the passes — in particular when a
bold or italic span is broken across the newline — the whole text, marker
characters included, is left unmodified. -/
theorem c4_emphasis_single_line (x y : List Char) :
    emphasisPasses (x ++ '\n' :: y) =
      emphasisPasses x ++ '\n' :: emphasisPasses y ∧
    (emphasisPasses x = x → emphasisPasses y = y →
      emphasisPasses (x ++ '\n' :: y) = x ++ '\n' :: y) := by
  have hdist : emphasisPasses (x ++ '\n' :: y) =
      emphasisPasses x ++ '\n' :: emphasisPasses y := by
    unfold emphasisPasses
    rw [subEmph_append_nl (d := ['*', '*', '*']) (by decide) (by decide) x y,
      subEmph_append_nl (d := ['*', '*']) (by decide) (by decide),
      subEmph_append_nl (d := ['*']) (by decide) (by decide),
      subEmph_append_nl (d := ['_', '_']) (by decide) (by decide),
      subEmph_append_nl (d := ['_']) (by decide) (by decide)]
  refine ⟨hdist, fun h₁ h₂ => ?_⟩
  rw [hdist, h₁, h₂]

theorem c4_witness :
    emphasisPasses (cs "**a") = cs "**a" ∧
    emphasisPasses (cs "b**") = cs "b**" ∧
    emphasisPasses (cs "**a" ++ '\n' :: cs "b**") = cs "**a" ++ '\n' :: cs "b**" :=
  ⟨by decide, by decide,
    (c4_emphasis_single_line (cs "**a") (cs "b**")).2 (by decide) (by decide)⟩

/-! ## Claim C6 -/

/-- C6: `sanitize_filename` always returns a non-empty string of length at
most 100, and returns the literal `untitled` whenever the input sanitizes
(replace, collapse, strip) to the empty string. -/
theorem c6_sanitize_filename_safe (l : List Char) :
    sanitize_filename l ≠ [] ∧ (sanitize_filename l).length ≤ 100 ∧
    (stripChars (cs "_ ") (collapseUnderscores (replaceInvalid l)) = [] →
      sanitize_filename l = cs "untitled") := by
  unfold sanitize_filename
  by_cases h : (stripChars (cs "_ ") (collapseUnderscores (replaceInvalid l))).isEmpty
  · simp only [h, if_true]
    refine ⟨by decide, by decide, fun _ => by decide⟩
  · simp only [h, Bool.false_eq_true, if_false]
    set f₃ := stripChars (cs "_ ") (collapseUnderscores (replaceInvalid l)) with hf₃
    have hne : f₃ ≠ [] := by
      intro hc
      rw [hc] at h
      simp at h
    refine ⟨?_, ?_, fun hc => absurd hc hne⟩
    · by_cases hlen : 100 < f₃.length
      · simp only [hlen, if_true]
        intro hc
        have := congrArg List.length hc
        simp only [List.length_take, List.length_nil] at this
        omega
      · simp only [hlen, if_false]
        exact hne
    · by_cases hlen : 100 < f₃.length
      · simp only [hlen, if_true, List.length_take]
        omega
      · simp only [hlen, if_false]
        omega

theorem c6_witness :
    stripChars (cs "_ ") (collapseUnderscores (replaceInvalid (cs "???"))) = [] ∧
    sanitize_filename (cs "???") = cs "untitled" :=
  ⟨by decide, (c6_sanitize_filename_safe (cs "???")).2.2 (by decide)⟩

/-! ## Claim C7 -/

theorem dropWhile_eq_drop_exists (p : Char → Bool) :
    ∀ l : List Char, ∃ j, l.dropWhile p = l.drop j := by
  intro l
  induction l with
  | nil => exact ⟨0, rfl⟩
  | cons c r ih =>
    by_cases hp : p c
    · obtain ⟨j, hj⟩ := ih
      exact ⟨j + 1, by simp [List.dropWhile, hp, hj]⟩
    · exact ⟨0, by simp [List.dropWhile, hp]⟩

theorem pyStrip_take_exists (l : List Char) :
    ∃ k, pyStrip l = (l.dropWhile isPySpace).take k := by
  unfold pyStrip
  set m := l.dropWhile isPySpace with hm
  obtain ⟨j, hj⟩ := dropWhile_eq_drop_exists isPySpace m.reverse
  refine ⟨m.length - j, ?_⟩
  rw [hj]
  rw [List.reverse_drop]
  simp

theorem head?_dropWhile_not (p : Char → Bool) :
    ∀ l : List Char, ∀ c, (l.dropWhile p).head? = some c → p c = false := by
  intro l
  induction l with
  | nil => intro c h; simp at h
  | cons a r ih =>
    intro c h
    by_cases hp : p a
    · rw [List.dropWhile_cons_of_pos hp] at h
      exact ih c h
    · rw [List.dropWhile_cons_of_neg hp] at h
      simp only [List.head?_cons, Option.some.injEq] at h
      subst h
      simpa using hp

theorem head?_pyStrip (l : List Char) :
    (pyStrip l).head? = (l.dropWhile isPySpace).head? := by
  obtain ⟨k, hk⟩ := pyStrip_take_exists l
  rw [hk]
  cases hm : l.dropWhile isPySpace with
  | nil => simp
  | cons a r =>
    cases k with
    | zero =>
      exfalso
      have ha : isPySpace a = false :=
        head?_dropWhile_not isPySpace l a (by rw [hm]; rfl)
      have hnil : pyStrip l = [] := by rw [hk, hm]; rfl
      unfold pyStrip at hnil
      rw [hm] at hnil
      have h₂ : (a :: r).reverse.dropWhile isPySpace = [] :=
        List.reverse_eq_nil_iff.mp hnil
      have hall := List.dropWhile_eq_nil_iff.mp h₂
      have := hall a (by simp)
      rw [ha] at this
      exact absurd this (by simp)
    | succ k => simp

/-- C7: `export_to_markdown` prepends a synthesized `# <title>` heading plus a
blank line exactly when the content's leading non-whitespace characters do not
begin a `#` heading; otherwise the body after the front matter is the raw
content unchanged. -/
theorem c7_export_markdown_heading (t : TemplateView) (nowS : List Char) :
    (¬ (t.content.dropWhile isPySpace).head? = some '#' →
      export_to_markdown t nowS =
        mkFrontMatter t nowS ++ (cs "# " ++ t.title ++ cs "\n\n" ++ t.content)) ∧
    ((t.content.dropWhile isPySpace).head? = some '#' →
      export_to_markdown t nowS = mkFrontMatter t nowS ++ t.content) := by
  unfold export_to_markdown
  rw [head?_pyStrip]
  constructor
  · intro h
    simp only [h, if_false]
  · intro h
    simp only [h, if_true]

theorem c7_witness :
    ((cs "hello").dropWhile isPySpace).head? ≠ some '#' ∧
    export_to_markdown ⟨cs "T", none, cs "C", cs "U", none, false, cs "hello"⟩ (cs "E") =
      mkFrontMatter ⟨cs "T", none, cs "C", cs "U", none, false, cs "hello"⟩ (cs "E") ++
        (cs "# " ++ cs "T" ++ cs "\n\n" ++ cs "hello") :=
  ⟨by decide,
    (c7_export_markdown_heading ⟨cs "T", none, cs "C", cs "U", none, false, cs "hello"⟩
      (cs "E")).1 (by decide)⟩

/-! ## Claim C5 -/

/-- C5: in the Disk Mirror rebuild, every template whose folder reference is
unresolved (no folder id, or a folder id that is not in the folder-path map)
is written as `<sanitized-title>.md` directly under the root templates
directory, and no template is skipped (one write per template). -/
theorem c5_unresolved_template_to_root (m : FMap) (nowS nowIso : List Char)
    (ts : List TemplateRec) (i : Nat) (t : TemplateRec) :
    (syncTemplatesWrites m nowS nowIso ts).length = ts.length ∧
    (ts[i]? = some t →
      (t.folder_id = none ∨
        ∀ fid, t.folder_id = some fid → fmLookup m fid = none) →
      (syncTemplatesWrites m nowS nowIso ts)[i]? =
        some (rootDir ++ [sanitize_template_filename nowS t.title ++ cs ".md"],
          cs "---\ntitle: " ++ t.title ++ cs "\ncreated: " ++ nowIso ++
            cs "\n---\n\n" ++ t.content)) := by
  constructor
  · simp [syncTemplatesWrites]
  · intro ht hu
    unfold syncTemplatesWrites
    rw [List.getElem?_map, ht]
    simp only [Option.map_some', Option.some.injEq]
    have hdir : templateDir m t = rootDir := by
      unfold templateDir
      cases hf : t.folder_id with
      | none => rfl
      | some fid =>
        rcases hu with hu | hu
        · rw [hf] at hu; cases hu
        · by_cases h0 : fid = 0
          · simp [h0]
          · simp only [h0, if_false]
            rw [hu fid hf]
    unfold writeOf
    rw [hdir]

theorem c5_witness :
    ([⟨cs "T", cs "body", some 2⟩] : List TemplateRec)[0]? =
        some ⟨cs "T", cs "body", some 2⟩ ∧
    (syncTemplatesWrites [(1, [cs "A"])] (cs "N") (cs "I")
        [⟨cs "T", cs "body", some 2⟩])[0]? =
      some (rootDir ++ [sanitize_template_filename (cs "N") (cs "T") ++ cs ".md"],
        cs "---\ntitle: " ++ cs "T" ++ cs "\ncreated: " ++ cs "I" ++
          cs "\n---\n\n" ++ cs "body") :=
  ⟨by decide,
    (c5_unresolved_template_to_root [(1, [cs "A"])] (cs "N") (cs "I")
      [⟨cs "T", cs "body", some 2⟩] 0 ⟨cs "T", cs "body", some 2⟩).2
      (by decide) (Or.inr (by decide))⟩

/-! ## Claim C2 -/

/-- C2 counterexample: `sync_database_to_filesystem` does not wrap
`save_template_to_disk` in try/except, so with two templates and a write
failure on the first, the second template is not written — refuting the claim
that all other templates are still written. -/
theorem c2_counterexample :
    (syncTemplatesRun [] (cs "N") (cs "I") (fun t => t.title == cs "T1")
        [⟨cs "T1", cs "c1", none⟩, ⟨cs "T2", cs "c2", none⟩]).1 = [] ∧
    writeOf [] (cs "N") (cs "I") ⟨cs "T2", cs "c2", none⟩ ∉
      (syncTemplatesRun [] (cs "N") (cs "I") (fun t => t.title == cs "T1")
        [⟨cs "T1", cs "c1", none⟩, ⟨cs "T2", cs "c2", none⟩]).1 := by
  constructor
  · rfl
  · intro h
    rw [show (syncTemplatesRun [] (cs "N") (cs "I") (fun t => t.title == cs "T1")
        [⟨cs "T1", cs "c1", none⟩, ⟨cs "T2", cs "c2", none⟩]).1 = [] from rfl] at h
    exact absurd h (List.not_mem_nil _)

/-- C2 amended: inside the rebuild a failing template write is not caught;
the exception aborts the template loop, so exactly the templates before the
failing one are written and the rebuild reports the abort (the caller catches
the propagated error around the whole sync, not per file). -/
theorem c2_amended_write_failure_aborts (m : FMap) (nowS nowIso : List Char)
    (failsOn : TemplateRec → Bool) :
    ∀ (pre : List TemplateRec) (t : TemplateRec) (post : List TemplateRec),
      (∀ u ∈ pre, failsOn u = false) → failsOn t = true →
      syncTemplatesRun m nowS nowIso failsOn (pre ++ t :: post) =
        (pre.map (writeOf m nowS nowIso), true) := by
  intro pre
  induction pre with
  | nil =>
    intro t post _ ht
    simp [syncTemplatesRun, ht]
  | cons u us ih =>
    intro t post hpre ht
    have hu : failsOn u = false := hpre u (by simp)
    simp only [List.cons_append, syncTemplatesRun, hu, Bool.false_eq_true, if_false,
      List.append_eq]
    rw [ih t post (fun v hv => hpre v (by simp [hv])) ht]
    simp

theorem c2_amended_witness :
    (∀ u ∈ ([⟨cs "T0", cs "c0", none⟩] : List TemplateRec),
      (fun t => t.title == cs "T1") u = false) ∧
    (fun (t : TemplateRec) => t.title == cs "T1") ⟨cs "T1", cs "c1", none⟩ = true ∧
    syncTemplatesRun [] (cs "N") (cs "I") (fun t => t.title == cs "T1")
        ([⟨cs "T0", cs "c0", none⟩] ++ ⟨cs "T1", cs "c1", none⟩ ::
          [⟨cs "T2", cs "c2", none⟩]) =
      (([⟨cs "T0", cs "c0", none⟩] : List TemplateRec).map
        (writeOf [] (cs "N") (cs "I")), true) :=
  ⟨by decide, by decide,
    c2_amended_write_failure_aborts [] (cs "N") (cs "I")
      (fun t => t.title == cs "T1") [⟨cs "T0", cs "c0", none⟩]
      ⟨cs "T1", cs "c1", none⟩ [⟨cs "T2", cs "c2", none⟩]
      (by decide) (by decide)⟩

/-! ## Claims C9 and C1: the folder phase -/

theorem fmLookup_insert (m : FMap) (k' : Nat) (v : Path) (k : Nat) :
    fmLookup (fmInsert m k' v) k = if k' = k then some v else fmLookup m k := by
  unfold fmLookup fmInsert
  by_cases h : k' = k
  · simp [List.find?, h]
  · simp [List.find?, h]

theorem rootStep_mono (nowS : List Char) (m : FMap) (f : FolderRec) (k : Nat)
    (h : (fmLookup m k).isSome = true) :
    (fmLookup (rootStep nowS m f) k).isSome = true := by
  unfold rootStep
  cases f.parent with
  | none =>
    rw [fmLookup_insert]
    by_cases hk : f.id = k <;> simp [hk, h]
  | some _ => exact h

theorem childStep_mono (nowS : List Char) (m : FMap) (f : FolderRec) (k : Nat)
    (h : (fmLookup m k).isSome = true) :
    (fmLookup (childStep nowS m f) k).isSome = true := by
  unfold childStep
  cases f.parent with
  | none => exact h
  | some p =>
    dsimp only
    cases hlp : fmLookup m p with
    | none => exact h
    | some pp =>
      dsimp only
      rw [fmLookup_insert]
      by_cases hk : f.id = k <;> simp [hk, h]

theorem foldl_childStep_mono (nowS : List Char) (k : Nat) :
    ∀ (todo : List FolderRec) (m : FMap), (fmLookup m k).isSome = true →
      (fmLookup (todo.foldl (childStep nowS) m) k).isSome = true := by
  intro todo
  induction todo with
  | nil => intro m h; exact h
  | cons g gs ih =>
    intro m h
    exact ih _ (childStep_mono nowS m g k h)

theorem foldl_rootStep_mono (nowS : List Char) (k : Nat) :
    ∀ (todo : List FolderRec) (m : FMap), (fmLookup m k).isSome = true →
      (fmLookup (todo.foldl (rootStep nowS) m) k).isSome = true := by
  intro todo
  induction todo with
  | nil => intro m h; exact h
  | cons g gs ih =>
    intro m h
    exact ih _ (rootStep_mono nowS m g k h)

theorem rootFold_inv (fs : List FolderRec) (nowS : List Char) :
    ∀ (todo : List FolderRec) (m : FMap), (∀ f ∈ todo, f ∈ fs) →
      (∀ k, (fmLookup m k).isSome = true → Rooted fs k) →
      ∀ k, (fmLookup (todo.foldl (rootStep nowS) m) k).isSome = true →
        Rooted fs k := by
  intro todo
  induction todo with
  | nil => intro m _ hm k hk; exact hm k hk
  | cons g gs ih =>
    intro m hmem hm k hk
    refine ih (rootStep nowS m g) (fun f hf => hmem f (by simp [hf])) ?_ k hk
    intro k' hk'
    unfold rootStep at hk'
    cases hg : g.parent with
    | none =>
      rw [hg, fmLookup_insert] at hk'
      by_cases heq : g.id = k'
      · exact heq ▸ Rooted.isRoot g (hmem g (by simp)) hg
      · rw [if_neg heq] at hk'
        exact hm k' hk'
    | some p =>
      rw [hg] at hk'
      exact hm k' hk'

theorem childFold_inv (fs : List FolderRec) (nowS : List Char) :
    ∀ (todo : List FolderRec) (m : FMap), (∀ f ∈ todo, f ∈ fs) →
      (∀ k, (fmLookup m k).isSome = true → Rooted fs k) →
      ∀ k, (fmLookup (todo.foldl (childStep nowS) m) k).isSome = true →
        Rooted fs k := by
  intro todo
  induction todo with
  | nil => intro m _ hm k hk; exact hm k hk
  | cons g gs ih =>
    intro m hmem hm k hk
    refine ih (childStep nowS m g) (fun f hf => hmem f (by simp [hf])) ?_ k hk
    intro k' hk'
    unfold childStep at hk'
    cases hg : g.parent with
    | none =>
      rw [hg] at hk'
      exact hm k' hk'
    | some p =>
      rw [hg] at hk'
      dsimp only at hk'
      cases hlp : fmLookup m p with
      | none =>
        rw [hlp] at hk'
        exact hm k' hk'
      | some pp =>
        rw [hlp] at hk'
        dsimp only at hk'
        rw [fmLookup_insert] at hk'
        by_cases heq : g.id = k'
        · have hp : Rooted fs p := hm p (by rw [hlp]; rfl)
          exact heq ▸ Rooted.isChild g p (hmem g (by simp)) hg hp
        · rw [if_neg heq] at hk'
          exact hm k' hk'

/-- C9 (implicit): the two-pass folder phase of the Disk Mirror rebuild (it is
a terminating pair of bounded passes by construction) never records a
directory for a folder id that is not reachable through a parent chain ending
at a parentless folder of the list — in particular folders whose parent
references form a cycle are left unmirrored. -/
theorem c9_folder_phase_rooted (fs : List FolderRec) (nowS : List Char) (k : Nat)
    (h : (fmLookup (syncFolderPhase nowS fs) k).isSome = true) : Rooted fs k := by
  unfold syncFolderPhase syncChildFolders at h
  refine childFold_inv fs nowS fs (syncRootFolders nowS fs) (fun f hf => hf) ?_ k h
  intro k' hk'
  unfold syncRootFolders at hk'
  exact rootFold_inv fs nowS fs [] (fun f hf => hf) (by intro k'' hk''; simp [fmLookup] at hk'') k' hk'

theorem c9_witness :
    (fmLookup (syncFolderPhase (cs "20250101") [⟨0, cs "r", none⟩]) 0).isSome = true ∧
    Rooted [⟨0, cs "r", none⟩] 0 :=
  ⟨by decide, c9_folder_phase_rooted [⟨0, cs "r", none⟩] (cs "20250101") 0 (by decide)⟩

/-- C1 counterexample: folder 2's full ancestor chain resolves (2 → 1 → 0,
folder 0 a root), yet with the parents listed after their children the single
child pass records no directory for folder 2 — the rebuild is not a repeated
to-fixpoint process and is order-dependent. -/
theorem c1_counterexample :
    Rooted [⟨2, cs "b", some 1⟩, ⟨1, cs "a", some 0⟩, ⟨0, cs "r", none⟩] 2 ∧
    fmLookup (syncFolderPhase (cs "20250101")
      [⟨2, cs "b", some 1⟩, ⟨1, cs "a", some 0⟩, ⟨0, cs "r", none⟩]) 2 = none := by
  constructor
  · exact Rooted.isChild ⟨2, cs "b", some 1⟩ 1 (by simp) rfl
      (Rooted.isChild ⟨1, cs "a", some 0⟩ 0 (by simp) rfl
        (Rooted.isRoot ⟨0, cs "r", none⟩ (by simp) rfl))
  · decide

theorem parentsPrecede_mem :
    ∀ (todo : List FolderRec) (seen : List Nat), parentsPrecede seen todo = true →
      ∀ (pre : List FolderRec) (f : FolderRec) (post : List FolderRec),
        todo = pre ++ f :: post → ∀ p, f.parent = some p →
        p ∈ seen ∨ p ∈ pre.map FolderRec.id := by
  intro todo
  induction todo with
  | nil =>
    intro seen _ pre f post heq
    exact absurd heq (by simp)
  | cons g gs ih =>
    intro seen h pre f post heq p hp
    simp only [parentsPrecede, Bool.and_eq_true] at h
    cases pre with
    | nil =>
      simp only [List.nil_append, List.cons.injEq] at heq
      obtain ⟨rfl, _⟩ := heq
      left
      rw [hp] at h
      simpa using h.1
    | cons q qs =>
      simp only [List.cons_append, List.cons.injEq] at heq
      obtain ⟨rfl, heq'⟩ := heq
      have := ih (g.id :: seen) h.2 qs f post heq' p hp
      rcases this with hs | hpre
      · rcases List.mem_cons.mp hs with h1 | h2
        · right; simp [h1]
        · left; exact h2
      · right
        simp only [List.map_cons, List.mem_cons]
        right
        exact hpre

theorem nodup_id_unique {fs : List FolderRec}
    (hnd : (fs.map FolderRec.id).Nodup) :
    ∀ f g, f ∈ fs → g ∈ fs → f.id = g.id → f = g := by
  induction fs with
  | nil => intro f g hf; simp at hf
  | cons h t ih =>
    intro f g hf hg hid
    simp only [List.map_cons, List.nodup_cons] at hnd
    rcases List.mem_cons.mp hf with rfl | hf'
    · rcases List.mem_cons.mp hg with rfl | hg'
      · rfl
      · exact absurd (hid ▸ List.mem_map_of_mem FolderRec.id hg') hnd.1
    · rcases List.mem_cons.mp hg with rfl | hg'
      · exact absurd (hid ▸ List.mem_map_of_mem FolderRec.id hf') hnd.1
      · exact ih hnd.2 f g hf' hg' hid

theorem rooted_inversion {fs : List FolderRec} {k : Nat} (h : Rooted fs k) :
    (∃ f, f ∈ fs ∧ f.id = k ∧ f.parent = none) ∨
    (∃ f p, f ∈ fs ∧ f.id = k ∧ f.parent = some p ∧ Rooted fs p) := by
  cases h with
  | isRoot f hf hp => exact Or.inl ⟨f, hf, rfl, hp⟩
  | isChild f p hf hp hr => exact Or.inr ⟨f, p, hf, rfl, hp, hr⟩

theorem childStep_insert (nowS : List Char) (m : FMap) (f : FolderRec)
    (p : Nat) (pp : Path) (hfp : f.parent = some p)
    (hlp : fmLookup m p = some pp) :
    childStep nowS m f = fmInsert m f.id (pp ++ [sanitize_folder_name nowS f.name]) := by
  unfold childStep
  rw [hfp]
  dsimp only
  rw [hlp]

theorem rootFold_mem (nowS : List Char) :
    ∀ (todo : List FolderRec) (m : FMap) (f : FolderRec), f ∈ todo →
      f.parent = none →
      (fmLookup (todo.foldl (rootStep nowS) m) f.id).isSome = true := by
  intro todo
  induction todo with
  | nil => intro m f hf; simp at hf
  | cons g gs ih =>
    intro m f hf hp
    rcases List.mem_cons.mp hf with rfl | hf'
    · refine foldl_rootStep_mono nowS f.id gs (rootStep nowS m f) ?_
      unfold rootStep
      rw [hp, fmLookup_insert, if_pos rfl]
      rfl
    · exact ih (rootStep nowS m g) f hf' hp

/-- Rooted ids are recorded by the child pass once the prefix containing the
folder (parents first) has been processed. -/
theorem childFold_reaches (fs : List FolderRec) (nowS : List Char)
    (hnd : (fs.map FolderRec.id).Nodup)
    (hpp : parentsPrecede [] fs = true) :
    ∀ (n : Nat) (pre : List FolderRec) (f : FolderRec) (post : List FolderRec),
      pre.length = n → fs = pre ++ f :: post → Rooted fs f.id →
      (fmLookup ((pre ++ [f]).foldl (childStep nowS) (syncRootFolders nowS fs))
        f.id).isSome = true := by
  intro n
  induction n using Nat.strong_induction_on with
  | _ n ih =>
    intro pre f post hlen heq hr
    have hfmem : f ∈ fs := by rw [heq]; simp
    cases hfp : f.parent with
    | none =>
      have hm0 : (fmLookup (syncRootFolders nowS fs) f.id).isSome = true := by
        unfold syncRootFolders
        exact rootFold_mem nowS fs [] f hfmem hfp
      exact foldl_childStep_mono nowS f.id (pre ++ [f]) _ hm0
    | some p =>
      have hrp : Rooted fs p := by
        rcases rooted_inversion hr with ⟨g, hg, hgid, hgp⟩ | ⟨g, p', hg, hgid, hgp, hp'⟩
        · have : g = f := nodup_id_unique hnd g f hg hfmem hgid
          rw [this, hfp] at hgp
          cases hgp
        · have : g = f := nodup_id_unique hnd g f hg hfmem hgid
          rw [this, hfp] at hgp
          have : p' = p := by injection hgp with h'; exact h'.symm
          rw [← this]
          exact hp'
      have hpm : p ∈ pre.map FolderRec.id := by
        have := parentsPrecede_mem fs [] hpp pre f post heq p hfp
        rcases this with h | h
        · simp at h
        · exact h
      obtain ⟨g, hgpre, hgid⟩ := List.mem_map.mp hpm
      obtain ⟨pre₁, pre₂, rfl⟩ := List.append_of_mem hgpre
      have hglen : pre₁.length < n := by
        have := congrArg List.length (rfl : pre₁ ++ g :: pre₂ = pre₁ ++ g :: pre₂)
        simp only [List.length_append, List.length_cons] at hlen ⊢
        omega
      have hfs₂ : fs = pre₁ ++ g :: (pre₂ ++ f :: post) := by
        rw [heq]; simp
      have hgr : Rooted fs g.id := hgid.symm ▸ hrp
      have hgsome := ih pre₁.length hglen pre₁ g (pre₂ ++ f :: post) rfl hfs₂ hgr
      have hchain : (pre₁ ++ [g]) ++ pre₂ = pre₁ ++ g :: pre₂ := by simp
      have hpsome : (fmLookup ((pre₁ ++ g :: pre₂).foldl (childStep nowS)
          (syncRootFolders nowS fs)) p).isSome = true := by
        rw [← hchain, List.foldl_append]
        refine foldl_childStep_mono nowS p pre₂ _ ?_
        rw [← hgid]
        exact hgsome
      rw [List.foldl_append]
      obtain ⟨pp, hpp'⟩ := Option.isSome_iff_exists.mp hpsome
      simp only [List.foldl_cons, List.foldl_nil]
      rw [childStep_insert nowS _ f p pp hfp hpp', fmLookup_insert, if_pos rfl]
      rfl

/-- C1 amended: the child-folder phase is a single pass in list order, not a
repeated to-fixpoint process; mirroring of every folder whose ancestor chain
resolves is guaranteed when (and, at depth ≥ 3, only when) each non-root
folder's parent occurs earlier in the folder list (with distinct folder ids).
-/
theorem c1_amended_parents_first (fs : List FolderRec) (nowS : List Char)
    (hnd : (fs.map FolderRec.id).Nodup)
    (hpp : parentsPrecede [] fs = true) (k : Nat) (hr : Rooted fs k) :
    (fmLookup (syncFolderPhase nowS fs) k).isSome = true := by
  have hex : ∃ f, f ∈ fs ∧ f.id = k := by
    rcases rooted_inversion hr with ⟨f, hf, hid, _⟩ | ⟨f, p, hf, hid, _, _⟩
    · exact ⟨f, hf, hid⟩
    · exact ⟨f, hf, hid⟩
  obtain ⟨f, hfmem, rfl⟩ := hex
  obtain ⟨pre, post, heq⟩ := List.append_of_mem hfmem
  have hsome := childFold_reaches fs nowS hnd hpp pre.length pre f post rfl heq hr
  have key : ∀ m₀ : FMap, fs.foldl (childStep nowS) m₀ =
      post.foldl (childStep nowS) ((pre ++ [f]).foldl (childStep nowS) m₀) := by
    intro m₀
    rw [heq, show pre ++ f :: post = (pre ++ [f]) ++ post by simp,
      List.foldl_append]
  unfold syncFolderPhase syncChildFolders
  rw [key (syncRootFolders nowS fs)]
  exact foldl_childStep_mono nowS f.id post _ hsome

theorem c1_amended_witness :
    (([⟨0, cs "r", none⟩, ⟨1, cs "a", some 0⟩, ⟨2, cs "b", some 1⟩] :
        List FolderRec).map FolderRec.id).Nodup ∧
    parentsPrecede []
      [⟨0, cs "r", none⟩, ⟨1, cs "a", some 0⟩, ⟨2, cs "b", some 1⟩] = true ∧
    (fmLookup (syncFolderPhase (cs "20250101")
      [⟨0, cs "r", none⟩, ⟨1, cs "a", some 0⟩, ⟨2, cs "b", some 1⟩]) 2).isSome
      = true :=
  ⟨by decide, by decide,
    c1_amended_parents_first
      [⟨0, cs "r", none⟩, ⟨1, cs "a", some 0⟩, ⟨2, cs "b", some 1⟩]
      (cs "20250101") (by decide) (by decide) 2
      (Rooted.isChild ⟨2, cs "b", some 1⟩ 1 (by simp) rfl
        (Rooted.isChild ⟨1, cs "a", some 0⟩ 0 (by simp) rfl
          (Rooted.isRoot ⟨0, cs "r", none⟩ (by simp) rfl)))⟩

/-- Illustration of the cycle case of C9: a two-cycle gets no directories. -/
theorem cycle_folders_unmirrored :
    fmLookup (syncFolderPhase (cs "20250101")
      [⟨5, cs "x", some 6⟩, ⟨6, cs "y", some 5⟩]) 5 = none ∧
    fmLookup (syncFolderPhase (cs "20250101")
      [⟨5, cs "x", some 6⟩, ⟨6, cs "y", some 5⟩]) 6 = none := by
  decide

/-! ## Claim C3 -/

theorem pyLines_ne_nil : ∀ l : List Char, pyLines l ≠ [] := by
  intro l
  cases l with
  | nil => simp [pyLines]
  | cons c rest =>
    unfold pyLines
    by_cases hc : c = '\n'
    · simp [hc]
    · simp only [hc, if_false]
      cases pyLines rest <;> simp

theorem pyLines_nl (r : List Char) : pyLines ('\n' :: r) = [] :: pyLines r := by
  simp [pyLines]

theorem pyLines_cons {c : Char} (hc : c ≠ '\n') {r ln : List Char}
    {lns : List (List Char)} (h : pyLines r = ln :: lns) :
    pyLines (c :: r) = (c :: ln) :: lns := by
  unfold pyLines
  simp [hc, h]

theorem amended_cons_ne_nil (y : List Char) {X : List (List Char)} (h : X ≠ []) :
    amendedListsCount (y :: X) =
      (if lineHasCodeListMark false y then 1 else 0) + amendedListsCount X := by
  cases X with
  | nil => exact absurd rfl h
  | cons a as => rfl

theorem tailCount_cons_ne_nil (y : List Char) {X : List (List Char)} (h : X ≠ []) :
    tailCount (y :: X) = amendedListsCount X := by
  cases X with
  | nil => exact absurd rfl h
  | cons a as => rfl

theorem listsCountAux_cons₂ (b : Bool) (c w : Char) (rest : List Char) :
    listsCountAux b (c :: w :: rest) =
      if b = true ∧ isListMarkClass c = true ∧ isPySpace w = true then
        1 + listsCountAux (w == '\n') rest
      else listsCountAux (c == '\n') (w :: rest) := rfl

theorem listsCountAux_pyLines :
    ∀ (n : Nat) (l : List Char), l.length ≤ n → ∀ b : Bool,
      listsCountAux b l =
        if b then amendedListsCount (pyLines l) else tailCount (pyLines l) := by
  intro n
  induction n with
  | zero =>
    intro l hl b
    have : l = [] := List.length_eq_zero.mp (Nat.le_zero.mp hl)
    subst this
    cases b <;> simp [listsCountAux, pyLines, amendedListsCount, tailCount,
      lineHasCodeListMark]
  | succ n ih =>
    intro l hl b
    match l with
    | [] =>
      cases b <;> simp [listsCountAux, pyLines, amendedListsCount, tailCount,
        lineHasCodeListMark]
    | [c] =>
      by_cases hc : c = '\n' <;>
        cases b <;>
          simp [listsCountAux, pyLines, amendedListsCount, tailCount,
            lineHasCodeListMark, hc]
    | c :: w :: rest =>
      simp only [List.length_cons] at hl
      have hrest : rest.length ≤ n := by omega
      have hwrest : (w :: rest).length ≤ n := by simp; omega
      rw [listsCountAux_cons₂]
      by_cases hm : (b = true ∧ isListMarkClass c = true ∧ isPySpace w = true)
      · obtain ⟨rfl, hcls, hws⟩ := hm
        have hc : c ≠ '\n' := by
          intro h
          subst h
          simp [isListMarkClass] at hcls
        rw [if_pos ⟨rfl, hcls, hws⟩, if_pos rfl]
        by_cases hw : w = '\n'
        · subst hw
          have hbeq : (('\n' : Char) == '\n') = true := by decide
          rw [hbeq, ih rest hrest true, if_pos rfl]
          rw [pyLines_cons hc (pyLines_nl rest)]
          rw [amended_cons_ne_nil [c] (pyLines_ne_nil rest)]
          have hmark : lineHasCodeListMark false [c] = true := by
            unfold lineHasCodeListMark
            simp [hcls]
          rw [hmark]
          simp
        · obtain ⟨ln₂, lns₂, h₂⟩ :=
            List.exists_cons_of_ne_nil (pyLines_ne_nil rest)
          have hbeq : (w == '\n') = false := by simp [hw]
          rw [hbeq, ih rest hrest false, if_neg (by simp)]
          rw [pyLines_cons hc (pyLines_cons hw h₂), h₂]
          have hmark : ∀ il, lineHasCodeListMark il (c :: w :: ln₂) = true := by
            intro il
            unfold lineHasCodeListMark
            simp [hcls, hws]
          cases lns₂ with
          | nil =>
            simp [amendedListsCount, tailCount, hmark]
          | cons a as =>
            rw [amended_cons_ne_nil (c :: w :: ln₂) (by simp),
              tailCount_cons_ne_nil ln₂ (by simp)]
            simp [hmark]
      · rw [if_neg hm]
        by_cases hc : c = '\n'
        · subst hc
          have hbeq : (('\n' : Char) == '\n') = true := by decide
          rw [hbeq, ih (w :: rest) hwrest true, if_pos rfl]
          rw [pyLines_nl (w :: rest)]
          cases b with
          | true =>
            rw [if_pos rfl,
              amended_cons_ne_nil [] (pyLines_ne_nil (w :: rest))]
            simp [lineHasCodeListMark]
          | false =>
            rw [if_neg (by simp),
              tailCount_cons_ne_nil [] (pyLines_ne_nil (w :: rest))]
        · have hbeq : (c == '\n') = false := by simp [hc]
          rw [hbeq, ih (w :: rest) hwrest false, if_neg (by simp)]
          by_cases hw : w = '\n'
          · subst hw
            rw [pyLines_nl rest, pyLines_cons hc (pyLines_nl rest),
              tailCount_cons_ne_nil [] (pyLines_ne_nil rest)]
            cases b with
            | true =>
              rw [if_pos rfl,
                amended_cons_ne_nil [c] (pyLines_ne_nil rest)]
              have hclsf : isListMarkClass c = false := by
                rcases Bool.eq_false_or_eq_true (isListMarkClass c) with h | h
                · exact absurd ⟨rfl, h, by decide⟩ hm
                · exact h
              have hmarkf : lineHasCodeListMark false [c] = false := by
                unfold lineHasCodeListMark
                simp [hclsf]
              rw [hmarkf]
              simp
            | false =>
              rw [if_neg (by simp),
                tailCount_cons_ne_nil [c] (pyLines_ne_nil rest)]
          · obtain ⟨ln₂, lns₂, h₂⟩ :=
              List.exists_cons_of_ne_nil (pyLines_ne_nil rest)
            rw [pyLines_cons hw h₂, pyLines_cons hc (pyLines_cons hw h₂)]
            cases b with
            | true =>
              rw [if_pos rfl]
              have hnm : (isListMarkClass c && isPySpace w) = false := by
                rcases Bool.eq_false_or_eq_true (isListMarkClass c) with h | h
                · rcases Bool.eq_false_or_eq_true (isPySpace w) with h' | h'
                  · exact absurd ⟨rfl, h, h'⟩ hm
                  · simp [h']
                · simp [h]
              have hmarkf : ∀ il, lineHasCodeListMark il (c :: w :: ln₂) = false := by
                intro il
                unfold lineHasCodeListMark
                exact hnm
              cases lns₂ with
              | nil => simp [amendedListsCount, tailCount, hmarkf]
              | cons a as =>
                rw [amended_cons_ne_nil (c :: w :: ln₂) (by simp),
                  tailCount_cons_ne_nil (w :: ln₂) (by simp)]
                simp [hmarkf]
            | false =>
              rw [if_neg (by simp)]
              cases lns₂ with
              | nil => simp [tailCount]
              | cons a as =>
                rw [tailCount_cons_ne_nil (c :: w :: ln₂) (by simp),
                  tailCount_cons_ne_nil (w :: ln₂) (by simp)]

/-- C3 counterexample: for content `"1. a"` the source's findall counts 0
list lines (the class regex `[\*\-\+\d+\.]\s` needs whitespace as the second
character), while the claimed unordered-plus-ordered count is 1. -/
theorem c3_counterexample :
    listsCount (cs "1. a") = 0 ∧ claimedListsCount (cs "1. a") = 1 ∧
    listsCount (cs "1. a") ≠ claimedListsCount (cs "1. a") := by
  refine ⟨by decide, by decide, by decide⟩

/-- C3 amended: the `lists` field equals the number of lines whose first
character is one of `* - + .` or a digit and whose second character is
whitespace — a one-character such line also counts via its terminating
newline when it is not the last line.  Ordered-list lines such as `1. x`
(digits, then period, then whitespace) are not counted. -/
theorem c3_amended_lists_count (l : List Char) :
    listsCount l = amendedListsCount (pyLines l) := by
  have := listsCountAux_pyLines l.length l (le_refl _) true
  rw [if_pos rfl] at this
  exact this

/-! ## Blank-line cleanup: characterisation of the greedy match -/

theorem nlLead_cons (c : Char) (r : List Char) :
    nlLead (c :: r) =
      if isPySpace c then (if c = '\n' then 1 else 0) + nlLead r else 0 := by
  unfold nlLead
  by_cases hc : isPySpace c
  · rw [List.takeWhile_cons_of_pos hc, if_pos hc]
    by_cases hn : c = '\n'
    · subst hn
      rw [if_pos rfl, List.count_cons_self]
      omega
    · rw [if_neg hn, List.count_cons_of_ne (fun hh => hn hh.symm)]
      omega
  · rw [List.takeWhile_cons_of_neg hc, if_neg hc]
    rfl

theorem greedySpaceNl_none_iff :
    ∀ l : List Char, greedySpaceNl l = none ↔ nlLead l = 0 := by
  intro l
  induction l with
  | nil => simp [greedySpaceNl, nlLead]
  | cons c r ih =>
    rw [nlLead_cons]
    unfold greedySpaceNl
    by_cases hc : isPySpace c
    · rw [if_pos hc, if_pos hc]
      cases hg : greedySpaceNl r with
      | some x =>
        have hne : nlLead r ≠ 0 := by
          intro h0
          rw [(ih.mpr h0)] at hg
          cases hg
        by_cases hn : c = '\n' <;> simp [hn, hne]
      | none =>
        have h0 : nlLead r = 0 := ih.mp hg
        by_cases hn : c = '\n' <;> simp [hn, h0]
    · rw [if_neg hc, if_neg hc]
      simp

theorem greedySpaceNl_some :
    ∀ {l r : List Char}, greedySpaceNl l = some r →
      nlLead r = 0 ∧ r.length ≤ l.length := by
  intro l
  induction l with
  | nil => intro r h; cases h
  | cons c t ih =>
    intro r h
    unfold greedySpaceNl at h
    by_cases hc : isPySpace c
    · simp only [hc, if_true] at h
      cases hg : greedySpaceNl t with
      | some x =>
        rw [hg] at h
        cases h
        have := ih hg
        exact ⟨this.1, by simp only [List.length_cons]; omega⟩
      | none =>
        rw [hg] at h
        by_cases hn : c = '\n'
        · simp only [hn, if_true] at h
          cases h
          exact ⟨greedySpaceNl_none_iff t |>.mp hg, by simp⟩
        · simp [hn] at h
    · simp [hc] at h

theorem matchSnSn_none_iff :
    ∀ l : List Char, matchSnSn l = none ↔ nlLead l ≤ 1 := by
  intro l
  induction l with
  | nil => simp [matchSnSn, nlLead]
  | cons c r ih =>
    rw [nlLead_cons]
    unfold matchSnSn
    by_cases hc : isPySpace c
    · rw [if_pos hc, if_pos hc]
      cases hs : matchSnSn r with
      | some x =>
        have h2 : ¬ nlLead r ≤ 1 := by
          intro hle
          rw [ih.mpr hle] at hs
          cases hs
        by_cases hn : c = '\n'
        · rw [if_pos hn]
          constructor
          · intro h; cases h
          · intro hcon; omega
        · rw [if_neg hn]
          constructor
          · intro h; cases h
          · intro hcon
            exact absurd (by omega : nlLead r ≤ 1) h2
      | none =>
        have hle : nlLead r ≤ 1 := ih.mp hs
        by_cases hn : c = '\n'
        · rw [if_pos hn, if_pos hn]
          cases hg : greedySpaceNl r with
          | some x =>
            have hne : nlLead r ≠ 0 := by
              intro h0
              rw [greedySpaceNl_none_iff r |>.mpr h0] at hg
              cases hg
            constructor
            · intro h; cases h
            · intro hcon; omega
          | none =>
            have h0 : nlLead r = 0 := greedySpaceNl_none_iff r |>.mp hg
            constructor
            · intro _; omega
            · intro _; rfl
        · rw [if_neg hn, if_neg hn]
          constructor
          · intro _; omega
          · intro _; rfl
    · rw [if_neg hc, if_neg hc]
      constructor
      · intro _; omega
      · intro _; rfl

theorem matchSnSn_some :
    ∀ {l r : List Char}, matchSnSn l = some r →
      nlLead r = 0 ∧ r.length ≤ l.length := by
  intro l
  induction l with
  | nil => intro r h; cases h
  | cons c t ih =>
    intro r h
    unfold matchSnSn at h
    by_cases hc : isPySpace c
    · simp only [hc, if_true] at h
      cases hs : matchSnSn t with
      | some x =>
        rw [hs] at h
        cases h
        have := ih hs
        exact ⟨this.1, by simp only [List.length_cons]; omega⟩
      | none =>
        rw [hs] at h
        by_cases hn : c = '\n'
        · simp only [hn, if_true] at h
          have := greedySpaceNl_some h
          exact ⟨this.1, by simp only [List.length_cons]; omega⟩
        · simp [hn] at h
    · simp [hc] at h

theorem nlLead_zero_cleanupF :
    ∀ (fuel : Nat) (l : List Char), nlLead l = 0 →
      nlLead (cleanupF fuel l) = 0 := by
  intro fuel
  induction fuel with
  | zero => intro l h; exact h
  | succ fuel ih =>
    intro l h
    cases l with
    | nil => simpa [cleanupF] using h
    | cons c rest =>
      rw [nlLead_cons] at h
      by_cases hc : isPySpace c
      · have hn : c ≠ '\n' := by
          intro hcn
          rw [if_pos hc, if_pos hcn] at h
          omega
        have hrest : nlLead rest = 0 := by
          rw [if_pos hc, if_neg hn] at h
          omega
        unfold cleanupF
        rw [if_neg hn, nlLead_cons, if_pos hc, if_neg hn]
        simpa using ih rest hrest
      · have hn : c ≠ '\n' := by
          intro hcn
          exact hc (by rw [hcn]; decide)
        unfold cleanupF
        rw [if_neg hn, nlLead_cons, if_neg hc]

theorem nlLead_le_one_cleanupF :
    ∀ (fuel : Nat) (l : List Char), nlLead l ≤ 1 →
      nlLead (cleanupF fuel l) ≤ 1 := by
  intro fuel
  induction fuel with
  | zero => intro l h; exact h
  | succ fuel ih =>
    intro l h
    cases l with
    | nil => simpa [cleanupF] using h
    | cons c rest =>
      rw [nlLead_cons] at h
      by_cases hn : c = '\n'
      · subst hn
        have hrest : nlLead rest = 0 := by
          rw [if_pos (by decide), if_pos rfl] at h
          omega
        have hnone : matchSnSn rest = none :=
          (matchSnSn_none_iff rest).mpr (by omega)
        unfold cleanupF
        rw [if_pos rfl, hnone, nlLead_cons, if_pos (by decide), if_pos rfl]
        have := nlLead_zero_cleanupF fuel rest hrest
        omega
      · by_cases hc : isPySpace c
        · have hrest : nlLead rest ≤ 1 := by
            rw [if_pos hc, if_neg hn] at h
            omega
          unfold cleanupF
          rw [if_neg hn, nlLead_cons, if_pos hc, if_neg hn]
          simpa using ih rest hrest
        · unfold cleanupF
          rw [if_neg hn, nlLead_cons, if_neg hc]
          omega

theorem noMatch_cleanupF :
    ∀ (fuel : Nat) (l : List Char), l.length ≤ fuel →
      noMatch (cleanupF fuel l) = true := by
  intro fuel
  induction fuel with
  | zero =>
    intro l h
    have : l = [] := List.length_eq_zero.mp (Nat.le_zero.mp h)
    subst this
    rfl
  | succ fuel ih =>
    intro l h
    cases l with
    | nil => rfl
    | cons c rest =>
      simp only [List.length_cons] at h
      by_cases hn : c = '\n'
      · subst hn
        cases hm : matchSnSn rest with
        | none =>
          have h1 : nlLead rest ≤ 1 := (matchSnSn_none_iff rest).mp hm
          have h2 : nlLead (cleanupF fuel rest) ≤ 1 :=
            nlLead_le_one_cleanupF fuel rest h1
          unfold cleanupF
          rw [if_pos rfl, hm]
          unfold noMatch
          rw [if_pos rfl, (matchSnSn_none_iff _).mpr h2]
          simpa using ih rest (by omega)
        | some r =>
          obtain ⟨hr0, hrlen⟩ := matchSnSn_some hm
          have hcl0 : nlLead (cleanupF fuel r) = 0 :=
            nlLead_zero_cleanupF fuel r hr0
          have hm1 : matchSnSn (cleanupF fuel r) = none :=
            (matchSnSn_none_iff _).mpr (by omega)
          have hm2 : matchSnSn ('\n' :: cleanupF fuel r) = none := by
            refine (matchSnSn_none_iff _).mpr ?_
            rw [nlLead_cons, if_pos (by decide), if_pos rfl]
            omega
          unfold cleanupF
          rw [if_pos rfl, hm]
          unfold noMatch
          rw [if_pos rfl, hm2]
          unfold noMatch
          rw [if_pos rfl, hm1]
          simpa using ih r (by omega)
      · unfold cleanupF
        rw [if_neg hn]
        unfold noMatch
        rw [if_neg hn]
        simpa using ih rest (by omega)

theorem noMatch_cleanupF_id :
    ∀ (fuel : Nat) (l : List Char), noMatch l = true → cleanupF fuel l = l := by
  intro fuel
  induction fuel with
  | zero => intro l _; rfl
  | succ fuel ih =>
    intro l h
    cases l with
    | nil => rfl
    | cons c rest =>
      unfold noMatch at h
      rw [Bool.and_eq_true] at h
      by_cases hn : c = '\n'
      · have hm : matchSnSn rest = none := by
          have := h.1
          rw [if_pos hn] at this
          exact Option.isNone_iff_eq_none.mp this
        unfold cleanupF
        rw [if_pos hn, hm, ih rest h.2, hn]
      · unfold cleanupF
        rw [if_neg hn, ih rest h.2]

theorem greedySpaceNl_cons (c : Char) (rest : List Char) :
    greedySpaceNl (c :: rest) =
      if isPySpace c then
        match greedySpaceNl rest with
        | some r => some r
        | none => if c = '\n' then some rest else none
      else none := rfl

theorem matchSnSn_cons (c : Char) (rest : List Char) :
    matchSnSn (c :: rest) =
      if isPySpace c then
        match matchSnSn rest with
        | some r => some r
        | none => if c = '\n' then greedySpaceNl rest else none
      else none := rfl

theorem greedySpaceNl_append_isSome :
    ∀ (a b : List Char), (greedySpaceNl a).isSome = true →
      (greedySpaceNl (a ++ b)).isSome = true := by
  intro a
  induction a with
  | nil => intro b h; simp [greedySpaceNl] at h
  | cons c t ih =>
    intro b h
    rw [greedySpaceNl_cons] at h
    rw [List.cons_append, greedySpaceNl_cons]
    by_cases hc : isPySpace c
    · rw [if_pos hc] at h ⊢
      cases hg : greedySpaceNl (t ++ b) with
      | some x => rfl
      | none =>
        cases hg' : greedySpaceNl t with
        | some x =>
          have hsome := ih b (by rw [hg']; rfl)
          rw [hg] at hsome
          simp at hsome
        | none =>
          rw [hg'] at h
          dsimp only at h ⊢
          by_cases hn : c = '\n'
          · rw [if_pos hn]; rfl
          · rw [if_neg hn] at h
            simp at h
    · rw [if_neg hc] at h
      simp at h

theorem matchSnSn_append_isSome :
    ∀ (a b : List Char), (matchSnSn a).isSome = true →
      (matchSnSn (a ++ b)).isSome = true := by
  intro a
  induction a with
  | nil => intro b h; simp [matchSnSn] at h
  | cons c t ih =>
    intro b h
    rw [matchSnSn_cons] at h
    rw [List.cons_append, matchSnSn_cons]
    by_cases hc : isPySpace c
    · rw [if_pos hc] at h ⊢
      cases hg : matchSnSn (t ++ b) with
      | some x => rfl
      | none =>
        cases hg' : matchSnSn t with
        | some x =>
          have hsome := ih b (by rw [hg']; rfl)
          rw [hg] at hsome
          simp at hsome
        | none =>
          rw [hg'] at h
          dsimp only at h ⊢
          by_cases hn : c = '\n'
          · rw [if_pos hn] at h ⊢
            exact greedySpaceNl_append_isSome t b h
          · rw [if_neg hn] at h
            simp at h
    · rw [if_neg hc] at h
      simp at h

theorem noMatch_tail {c : Char} {r : List Char}
    (h : noMatch (c :: r) = true) : noMatch r = true := by
  unfold noMatch at h
  rw [Bool.and_eq_true] at h
  exact h.2

theorem noMatch_dropWhile (p : Char → Bool) :
    ∀ l : List Char, noMatch l = true → noMatch (l.dropWhile p) = true := by
  intro l
  induction l with
  | nil => intro h; exact h
  | cons c r ih =>
    intro h
    by_cases hp : p c
    · rw [List.dropWhile_cons_of_pos hp]
      exact ih (noMatch_tail h)
    · rw [List.dropWhile_cons_of_neg hp]
      exact h

theorem noMatch_take :
    ∀ (l : List Char) (k : Nat), noMatch l = true → noMatch (l.take k) = true := by
  intro l
  induction l with
  | nil => intro k h; simpa using h
  | cons c r ih =>
    intro k h
    cases k with
    | zero => rfl
    | succ k =>
      rw [List.take_succ_cons]
      unfold noMatch at h ⊢
      rw [Bool.and_eq_true] at h
      rw [Bool.and_eq_true]
      refine ⟨?_, ih k h.2⟩
      by_cases hn : c = '\n'
      · rw [if_pos hn]
        have h1 := h.1
        rw [if_pos hn] at h1
        cases hm : matchSnSn (r.take k) with
        | none => rfl
        | some x =>
          exfalso
          have hsome : (matchSnSn (r.take k ++ r.drop k)).isSome = true :=
            matchSnSn_append_isSome _ _ (by rw [hm]; rfl)
          rw [List.take_append_drop] at hsome
          rw [Option.isNone_iff_eq_none.mp h1] at hsome
          cases hsome
      · rw [if_neg hn]

theorem noMatch_pyStrip (l : List Char) (h : noMatch l = true) :
    noMatch (pyStrip l) = true := by
  obtain ⟨k, hk⟩ := pyStrip_take_exists l
  rw [hk]
  exact noMatch_take _ k (noMatch_dropWhile isPySpace l h)

/-! ## Claim C10 -/

theorem cleanupF_cons (fuel : Nat) (c : Char) (rest : List Char) :
    cleanupF (fuel + 1) (c :: rest) =
      if c = '\n' then
        match matchSnSn rest with
        | some r => '\n' :: '\n' :: cleanupF fuel r
        | none => c :: cleanupF fuel rest
      else c :: cleanupF fuel rest := rfl

theorem cleanupF_congr :
    ∀ (f₁ f₂ : Nat) (l : List Char), l.length ≤ f₁ → l.length ≤ f₂ →
      cleanupF f₁ l = cleanupF f₂ l := by
  intro f₁
  induction f₁ with
  | zero =>
    intro f₂ l h₁ _
    have : l = [] := List.length_eq_zero.mp (Nat.le_zero.mp h₁)
    subst this
    cases f₂ <;> rfl
  | succ f₁ ih =>
    intro f₂ l h₁ h₂
    cases l with
    | nil => cases f₂ <;> rfl
    | cons c rest =>
      cases f₂ with
      | zero => simp at h₂
      | succ f₂ =>
        simp only [List.length_cons] at h₁ h₂
        rw [cleanupF_cons, cleanupF_cons]
        by_cases hn : c = '\n'
        · rw [if_pos hn, if_pos hn]
          cases hm : matchSnSn rest with
          | some r =>
            obtain ⟨-, hrlen⟩ := matchSnSn_some hm
            dsimp only
            rw [ih f₂ r (by omega) (by omega)]
          | none =>
            dsimp only
            rw [ih f₂ rest (by omega) (by omega)]
        · rw [if_neg hn, if_neg hn, ih f₂ rest (by omega) (by omega)]

theorem cleanupF_no_nl_id :
    ∀ (fuel : Nat) (l : List Char), '\n' ∉ l → cleanupF fuel l = l := by
  intro fuel
  induction fuel with
  | zero => intro l _; rfl
  | succ fuel ih =>
    intro l h
    cases l with
    | nil => rfl
    | cons c rest =>
      have hc : c ≠ '\n' := fun hh => h (hh ▸ List.mem_cons_self c rest)
      rw [cleanupF_cons, if_neg hc, ih rest (fun hh => h (List.mem_cons_of_mem c hh))]

theorem cleanupF_append_nonl :
    ∀ (a : List Char) (f₁ : Nat) (x : List Char) (f₂ : Nat), '\n' ∉ a →
      (a ++ x).length ≤ f₁ → x.length ≤ f₂ →
      cleanupF f₁ (a ++ x) = a ++ cleanupF f₂ x := by
  intro a
  induction a with
  | nil =>
    intro f₁ x f₂ _ h₁ h₂
    simpa using cleanupF_congr f₁ f₂ x (by simpa using h₁) h₂
  | cons c t ih =>
    intro f₁ x f₂ h h₁ h₂
    have hc : c ≠ '\n' := fun hh => h (hh ▸ List.mem_cons_self c t)
    cases f₁ with
    | zero => simp at h₁
    | succ f₁ =>
      rw [List.cons_append, cleanupF_cons, if_neg hc]
      simp only [List.length_cons, List.length_append] at h₁ h₂
      rw [ih f₁ x f₂ (fun hh => h (List.mem_cons_of_mem c hh))
        (by simp; omega) h₂]
      rfl

/-- Skipping a run of non-newline whitespace does not change the matchers. -/
theorem matchSnSn_skip_ws :
    ∀ (w : List Char), (∀ c ∈ w, isPySpace c = true ∧ c ≠ '\n') →
      ∀ z, matchSnSn (w ++ z) = matchSnSn z ∧
        greedySpaceNl (w ++ z) = greedySpaceNl z := by
  intro w
  induction w with
  | nil => intro _ z; exact ⟨rfl, rfl⟩
  | cons c t ih =>
    intro h z
    have hc := h c (List.mem_cons_self c t)
    have ht : ∀ c ∈ t, isPySpace c = true ∧ c ≠ '\n' :=
      fun c hc => h c (List.mem_cons_of_mem _ hc)
    obtain ⟨iht, ihg⟩ := ih ht z
    constructor
    · rw [List.cons_append, matchSnSn_cons, if_pos hc.1, iht]
      cases hm : matchSnSn z with
      | some r => rfl
      | none =>
        dsimp only
        rw [if_neg hc.2]
    · rw [List.cons_append, greedySpaceNl_cons, if_pos hc.1, ihg]
      cases hm : greedySpaceNl z with
      | some r => rfl
      | none =>
        dsimp only
        rw [if_neg hc.2]

theorem matchSnSn_nonws_head :
    ∀ (b : List Char), (∀ c ∈ b, isPySpace c = false) →
      matchSnSn b = none ∧ greedySpaceNl b = none := by
  intro b hb
  cases b with
  | nil => exact ⟨rfl, rfl⟩
  | cons c r =>
    have hc : isPySpace c = false := hb c (List.mem_cons_self c r)
    constructor
    · rw [matchSnSn_cons, if_neg (by simp [hc])]
    · rw [greedySpaceNl_cons, if_neg (by simp [hc])]

/-- On a run of two or more blank lines followed by non-blank text, the greedy
`\s*\n\s*\n` matches through the last newline of the run. -/
theorem matchSnSn_blankJoin :
    ∀ (wsl : List (List Char)) (b : List Char),
      (∀ w ∈ wsl, ∀ c ∈ w, isPySpace c = true ∧ c ≠ '\n') →
      (∀ c ∈ b, isPySpace c = false) →
      (2 ≤ wsl.length → matchSnSn (blankJoin wsl ++ b) = some b) ∧
      (wsl.length = 1 → matchSnSn (blankJoin wsl ++ b) = none) := by
  intro wsl
  induction wsl with
  | nil =>
    intro b _ _
    exact ⟨fun h => by simp at h, fun h => by simp at h⟩
  | cons w rest ih =>
    intro b hws hb
    have hw : ∀ c ∈ w, isPySpace c = true ∧ c ≠ '\n' :=
      hws w (List.mem_cons_self w rest)
    have hrest : ∀ w' ∈ rest, ∀ c ∈ w', isPySpace c = true ∧ c ≠ '\n' :=
      fun w' hw' => hws w' (List.mem_cons_of_mem _ hw')
    have hjoin : blankJoin (w :: rest) ++ b = w ++ ('\n' :: (blankJoin rest ++ b)) := by
      unfold blankJoin
      simp
    constructor
    · intro hlen
      rw [hjoin, (matchSnSn_skip_ws w hw _).1, matchSnSn_cons,
        if_pos (by decide)]
      cases rest with
      | nil => simp at hlen
      | cons w₂ rest₂ =>
        cases rest₂ with
        | nil =>
          have hj2 : blankJoin [w₂] ++ b = w₂ ++ ('\n' :: b) := by
            unfold blankJoin
            simp
          have hm2 : matchSnSn (blankJoin [w₂] ++ b) = none := by
            rw [hj2, (matchSnSn_skip_ws w₂ (hrest w₂ (by simp)) _).1,
              matchSnSn_cons, if_pos (by decide),
              (matchSnSn_nonws_head b hb).1]
            dsimp only
            rw [if_pos rfl, (matchSnSn_nonws_head b hb).2]
          have hg2 : greedySpaceNl (blankJoin [w₂] ++ b) = some b := by
            rw [hj2, (matchSnSn_skip_ws w₂ (hrest w₂ (by simp)) _).2,
              greedySpaceNl_cons, if_pos (by decide),
              (matchSnSn_nonws_head b hb).2]
            dsimp only
            rw [if_pos rfl]
          rw [hm2]
          dsimp only
          rw [if_pos rfl, hg2]
        | cons w₃ rest₃ =>
          have hge : 2 ≤ ([w₂, w₃] ++ rest₃).length := by
            simp only [List.length_append, List.length_cons]
            omega
          have := (ih b hrest hb).1 (by simpa using hge)
          rw [this]
    · intro hlen
      cases rest with
      | cons _ _ => simp at hlen
      | nil =>
        have hj1 : blankJoin [w] ++ b = w ++ ('\n' :: b) := by
          unfold blankJoin
          simp
        rw [hj1, (matchSnSn_skip_ws w hw _).1, matchSnSn_cons,
          if_pos (by decide), (matchSnSn_nonws_head b hb).1]
        dsimp only
        rw [if_pos rfl]
        exact (matchSnSn_nonws_head b hb).2

/-- C10 (implicit): the blank-line cleanup fires for runs of two or more
consecutive blank lines (lines of spaces/tabs count as blank): between
non-blank text it collapses such a run to exactly one empty blank line (two
consecutive line breaks), while a single blank line is preserved. -/
theorem c10_blank_line_cleanup (a b : List Char) (wsl : List (List Char))
    (ha : ∀ c ∈ a, isPySpace c = false) (hb : ∀ c ∈ b, isPySpace c = false)
    (hwsl : ∀ w ∈ wsl, ∀ c ∈ w, c = ' ' ∨ c = '\t') :
    (2 ≤ wsl.length →
      cleanupPass (a ++ '\n' :: (blankJoin wsl ++ b)) = a ++ '\n' :: '\n' :: b) ∧
    (wsl.length = 1 →
      cleanupPass (a ++ '\n' :: (blankJoin wsl ++ b)) =
        a ++ '\n' :: (blankJoin wsl ++ b)) := by
  have hwsl' : ∀ w ∈ wsl, ∀ c ∈ w, isPySpace c = true ∧ c ≠ '\n' := by
    intro w hw c hc
    rcases hwsl w hw c hc with rfl | rfl <;> exact ⟨by decide, by decide⟩
  have hanl : '\n' ∉ a := by
    intro hmem
    have := ha '\n' hmem
    simp [isPySpace] at this
  have hbnl : '\n' ∉ b := by
    intro hmem
    have := hb '\n' hmem
    simp [isPySpace] at this
  unfold cleanupPass
  constructor
  · intro hlen
    have hmatch := (matchSnSn_blankJoin wsl b hwsl' hb).1 hlen
    rw [cleanupF_append_nonl a _ ('\n' :: (blankJoin wsl ++ b))
      (('\n' :: (blankJoin wsl ++ b)).length) hanl (by simp) (le_refl _)]
    congr 1
    rw [show ('\n' :: (blankJoin wsl ++ b)).length = (blankJoin wsl ++ b).length + 1
      from rfl, cleanupF_cons, if_pos rfl, hmatch]
    dsimp only
    have hblen : b.length ≤ (blankJoin wsl ++ b).length := by
      simp
    rw [cleanupF_congr _ b.length b hblen (le_refl _),
      cleanupF_no_nl_id b.length b hbnl]
  · intro hlen
    have hmatch := (matchSnSn_blankJoin wsl b hwsl' hb).2 hlen
    rw [cleanupF_append_nonl a _ ('\n' :: (blankJoin wsl ++ b))
      (('\n' :: (blankJoin wsl ++ b)).length) hanl (by simp) (le_refl _)]
    congr 1
    rw [show ('\n' :: (blankJoin wsl ++ b)).length = (blankJoin wsl ++ b).length + 1
      from rfl, cleanupF_cons, if_pos rfl, hmatch]
    dsimp only
    congr 1
    cases hlen' : wsl with
    | nil => rw [hlen'] at hlen; simp at hlen
    | cons w rest =>
      cases rest with
      | cons _ _ => rw [hlen'] at hlen; simp at hlen
      | nil =>
        have hj1 : blankJoin [w] ++ b = w ++ ('\n' :: b) := by
          unfold blankJoin
          simp
        have hwall : '\n' ∉ w := by
          intro hmem
          exact (hwsl' w (by rw [hlen']; simp) '\n' hmem).2 rfl
        rw [hj1, cleanupF_append_nonl w _ ('\n' :: b) (b.length + 1) hwall
          (by simp) (by simp)]
        congr 1
        rw [cleanupF_cons, if_pos rfl, (matchSnSn_nonws_head b hb).1,
          cleanupF_no_nl_id b.length b hbnl]

theorem c10_witness :
    (∀ c ∈ cs "x", isPySpace c = false) ∧
    (∀ c ∈ cs "y", isPySpace c = false) ∧
    (∀ w ∈ [[' '], ([] : List Char)], ∀ c ∈ w, c = ' ' ∨ c = '\t') ∧
    cleanupPass (cs "x" ++ '\n' :: (blankJoin [[' '], []] ++ cs "y")) =
      cs "x" ++ '\n' :: '\n' :: cs "y" ∧
    cleanupPass (cs "x" ++ '\n' :: (blankJoin [[' ']] ++ cs "y")) =
      cs "x" ++ '\n' :: (blankJoin [[' ']] ++ cs "y") :=
  ⟨by decide, by decide, by decide,
    (c10_blank_line_cleanup (cs "x") (cs "y") [[' '], []]
      (by decide) (by decide) (by decide)).1 (by decide),
    (c10_blank_line_cleanup (cs "x") (cs "y") [[' ']]
      (by decide) (by decide) (by decide)).2 (by decide)⟩

/-! ## Claim C8 -/

theorem dropWhile_eq_self_of_head (p : Char → Bool) (l : List Char)
    (h : ∀ c, l.head? = some c → p c = false) : l.dropWhile p = l := by
  cases l with
  | nil => rfl
  | cons c r =>
    have := h c rfl
    rw [List.dropWhile_cons_of_neg (by simp [this])]

theorem pyStrip_reverse (l : List Char) :
    (pyStrip l).reverse = (l.dropWhile isPySpace).reverse.dropWhile isPySpace := by
  unfold pyStrip
  rw [List.reverse_reverse]

theorem pyStrip_idem (l : List Char) : pyStrip (pyStrip l) = pyStrip l := by
  have h1 : (pyStrip l).dropWhile isPySpace = pyStrip l := by
    apply dropWhile_eq_self_of_head
    intro c hc
    rw [head?_pyStrip] at hc
    exact head?_dropWhile_not isPySpace l c hc
  show (((pyStrip l).dropWhile isPySpace).reverse.dropWhile isPySpace).reverse
      = pyStrip l
  rw [h1, pyStrip_reverse,
    dropWhile_eq_self_of_head isPySpace _
      (fun c hc => head?_dropWhile_not isPySpace _ c hc),
    ← pyStrip_reverse, List.reverse_reverse]

theorem subHeadersF_noop :
    ∀ (fuel : Nat) (b : Bool) (l : List Char), '#' ∉ l →
      subHeadersF b fuel l = l := by
  intro fuel
  induction fuel with
  | zero => intro b l _; rfl
  | succ fuel ih =>
    intro b l h
    cases l with
    | nil => rfl
    | cons c rest =>
      have hc : c ≠ '#' := fun hh => h (hh ▸ List.mem_cons_self c rest)
      show subHeadersF b (fuel + 1) (c :: rest) = c :: rest
      unfold subHeadersF
      rw [if_neg (fun hcon => hc hcon.2),
        ih (c == '\n') rest (fun hh => h (List.mem_cons_of_mem c hh))]

theorem subEmphF_noop (a : Char) (as : List Char) :
    ∀ (fuel : Nat) (l : List Char), a ∉ l → subEmphF (a :: as) fuel l = l := by
  intro fuel
  induction fuel with
  | zero => intro l _; rfl
  | succ fuel ih =>
    intro l h
    cases l with
    | nil => rfl
    | cons c rest =>
      have hlw : leadsWith (a :: as) (c :: rest) = false := by
        rcases Bool.eq_false_or_eq_true (leadsWith (a :: as) (c :: rest)) with hh | hh
        · exact absurd ((leadsWith_head hh) ▸ List.mem_cons_self c rest) h
        · exact hh
      show subEmphF (a :: as) (fuel + 1) (c :: rest) = c :: rest
      unfold subEmphF
      rw [hlw]
      simp only [Bool.false_eq_true, if_false]
      rw [ih rest (fun hh => h (List.mem_cons_of_mem c hh))]

theorem fencesOpenF_noop :
    ∀ (fuel : Nat) (b : Bool) (l : List Char), Char.ofNat 96 ∉ l →
      fencesOpenF b fuel l = l := by
  intro fuel
  induction fuel with
  | zero => intro b l _; rfl
  | succ fuel ih =>
    intro b l h
    cases l with
    | nil => rfl
    | cons c rest =>
      have hnt : leadsWith [Char.ofNat 96, Char.ofNat 96, Char.ofNat 96]
          (c :: rest) = false := by
        rcases Bool.eq_false_or_eq_true
          (leadsWith [Char.ofNat 96, Char.ofNat 96, Char.ofNat 96] (c :: rest))
          with hh | hh
        · exact absurd ((leadsWith_head hh) ▸ List.mem_cons_self c rest) h
        · exact hh
      show fencesOpenF b (fuel + 1) (c :: rest) = c :: rest
      unfold fencesOpenF
      rw [if_neg (fun hcon => by rw [hnt] at hcon; exact absurd hcon.2 (by simp)),
        ih (c == '\n') rest (fun hh => h (List.mem_cons_of_mem c hh))]

theorem fencesCloseF_noop :
    ∀ (fuel : Nat) (b : Bool) (l : List Char), Char.ofNat 96 ∉ l →
      fencesCloseF b fuel l = l := by
  intro fuel
  induction fuel with
  | zero => intro b l _; rfl
  | succ fuel ih =>
    intro b l h
    cases l with
    | nil => rfl
    | cons c rest =>
      have hnt : leadsWith [Char.ofNat 96, Char.ofNat 96, Char.ofNat 96]
          (c :: rest) = false := by
        rcases Bool.eq_false_or_eq_true
          (leadsWith [Char.ofNat 96, Char.ofNat 96, Char.ofNat 96] (c :: rest))
          with hh | hh
        · exact absurd ((leadsWith_head hh) ▸ List.mem_cons_self c rest) h
        · exact hh
      show fencesCloseF b (fuel + 1) (c :: rest) = c :: rest
      unfold fencesCloseF
      rw [if_neg (fun hcon => by rw [hnt] at hcon; exact absurd hcon.2.1 (by simp)),
        ih (c == '\n') rest (fun hh => h (List.mem_cons_of_mem c hh))]

theorem linksF_noop :
    ∀ (fuel : Nat) (l : List Char), '[' ∉ l → linksF fuel l = l := by
  intro fuel
  induction fuel with
  | zero => intro l _; rfl
  | succ fuel ih =>
    intro l h
    cases l with
    | nil => rfl
    | cons c rest =>
      have hc : c ≠ '[' := fun hh => h (hh ▸ List.mem_cons_self c rest)
      show linksF (fuel + 1) (c :: rest) = c :: rest
      unfold linksF
      rw [if_neg hc, ih rest (fun hh => h (List.mem_cons_of_mem c hh))]

theorem lineStartsAvoid_cons {bad : List Char → Bool} {b : Bool} {c : Char}
    {r : List Char} (h : lineStartsAvoid bad b (c :: r) = true) :
    (!b || !bad (c :: r)) = true ∧ lineStartsAvoid bad (c == '\n') r = true := by
  unfold lineStartsAvoid at h
  rw [Bool.and_eq_true] at h
  exact h

theorem quoteF_noop :
    ∀ (fuel : Nat) (b : Bool) (l : List Char),
      lineStartsAvoid quoteBad b l = true → quoteF b fuel l = l := by
  intro fuel
  induction fuel with
  | zero => intro b l _; rfl
  | succ fuel ih =>
    intro b l h
    cases l with
    | nil => rfl
    | cons c rest =>
      obtain ⟨h1, h2⟩ := lineStartsAvoid_cons h
      show quoteF b (fuel + 1) (c :: rest) = c :: rest
      unfold quoteF
      rw [if_neg ?_, ih (c == '\n') rest h2]
      intro hcon
      obtain ⟨hb, hcq⟩ := hcon
      rw [hb] at h1
      have : quoteBad (c :: rest) = true := by
        unfold quoteBad
        rw [hcq]
        rfl
      rw [this] at h1
      simp at h1

theorem ulistF_noop :
    ∀ (fuel : Nat) (b : Bool) (l : List Char), '*' ∉ l →
      lineStartsAvoid ulistBad b l = true → ulistF b fuel l = l := by
  intro fuel
  induction fuel with
  | zero => intro b l _ _; rfl
  | succ fuel ih =>
    intro b l hstar h
    cases l with
    | nil => rfl
    | cons c rest =>
      obtain ⟨h1, h2⟩ := lineStartsAvoid_cons h
      have hstar' : '*' ∉ rest := fun hh => hstar (List.mem_cons_of_mem c hh)
      show ulistF b (fuel + 1) (c :: rest) = c :: rest
      unfold ulistF
      by_cases hcon : (b = true ∧ (c = '*' ∨ c = '-' ∨ c = '+'))
      · obtain ⟨hb, hcm⟩ := hcon
        have hcm' : c = '-' ∨ c = '+' := by
          rcases hcm with hh | hh | hh
          · exact absurd (hh ▸ List.mem_cons_self c rest) hstar
          · exact Or.inl hh
          · exact Or.inr hh
        have hwnone : matchWsPlusDot rest = none := by
          cases rest with
          | nil => rfl
          | cons w r₂ =>
            have hbad : ulistBad (c :: w :: r₂) = false := by
              rw [hb] at h1
              rcases Bool.eq_false_or_eq_true (ulistBad (c :: w :: r₂)) with hh | hh
              · rw [hh] at h1; simp at h1
              · exact hh
            unfold ulistBad at hbad
            have hcw : (c = '-' || c = '+') = true := by
              rcases hcm' with hh | hh <;> simp [hh]
            rw [Bool.and_eq_false_iff] at hbad
            rcases hbad with hh | hh
            · rw [hcw] at hh; cases hh
            · show (if isPySpace w = true then matchWsDot r₂ else none) = none
              rw [if_neg (by simp [hh])]
        rw [if_pos ⟨hb, hcm⟩, hwnone]
        have hcnl : (c == '\n') = false := by
          rcases hcm' with hh | hh <;> simp [hh]
        rw [hcnl] at h2
        rw [ih false rest hstar' h2]
      · rw [if_neg hcon, ih (c == '\n') rest hstar' h2]

theorem hrF_noop :
    ∀ (fuel : Nat) (b : Bool) (l : List Char),
      lineStartsAvoid hrBad b l = true → hrF b fuel l = l := by
  intro fuel
  induction fuel with
  | zero => intro b l _; rfl
  | succ fuel ih =>
    intro b l h
    cases l with
    | nil => rfl
    | cons c rest =>
      obtain ⟨h1, h2⟩ := lineStartsAvoid_cons h
      show hrF b (fuel + 1) (c :: rest) = c :: rest
      unfold hrF
      rw [if_neg ?_, ih (c == '\n') rest h2]
      intro hcon
      obtain ⟨hb, hrun, hend⟩ := hcon
      rw [hb] at h1
      have : hrBad (c :: rest) = true := by
        unfold hrBad
        rw [Bool.and_eq_true]
        refine ⟨by simpa using hrun, ?_⟩
        rcases hend with hh | hh
        · simp [hh]
        · simp [hh]
      rw [this] at h1
      simp at h1

theorem not_mem_of_not_contains {c : Char} {l : List Char}
    (h : (!l.contains c) = true) : c ∉ l := by
  simpa using h

theorem markdown_to_text_ne_nil {l : List Char} (h : ¬ l.isEmpty = true) :
    markdown_to_text l =
      pyStrip (cleanupPass (hrPass (olistPass (ulistPass (quotePass
        (linksPass (fencesClosePass (fencesOpenPass
          (inlineCodePass (emphasisPasses (headersPass l))))))))))) := by
  unfold markdown_to_text
  rw [if_neg h]

/-- All rewrite passes before the blank-line cleanup fix a marker-free text. -/
theorem passes_noop {t : List Char} (h : noMarkers t = true) :
    hrPass (olistPass (ulistPass (quotePass (linksPass (fencesClosePass
      (fencesOpenPass (inlineCodePass (emphasisPasses (headersPass t))))))))) = t := by
  unfold noMarkers at h
  simp only [Bool.and_eq_true] at h
  obtain ⟨⟨⟨⟨⟨⟨⟨hhash, hstar⟩, htick⟩, hund⟩, hbr⟩, hquote⟩, hulist⟩, hhr⟩ := h
  have hhash' := not_mem_of_not_contains hhash
  have hstar' := not_mem_of_not_contains hstar
  have htick' := not_mem_of_not_contains htick
  have hund' := not_mem_of_not_contains hund
  have hbr' := not_mem_of_not_contains hbr
  have e₁ : headersPass t = t := subHeadersF_noop t.length true t hhash'
  have e₂ : emphasisPasses t = t := by
    unfold emphasisPasses subEmph
    rw [subEmphF_noop '*' ['*', '*'] _ t hstar',
      subEmphF_noop '*' ['*'] _ t hstar',
      subEmphF_noop '*' [] _ t hstar',
      subEmphF_noop '_' ['_'] _ t hund',
      subEmphF_noop '_' [] _ t hund']
  have e₃ : inlineCodePass t = t := by
    unfold inlineCodePass subEmph
    exact subEmphF_noop (Char.ofNat 96) [] _ t htick'
  have e₄ : fencesOpenPass t = t := fencesOpenF_noop t.length true t htick'
  have e₅ : fencesClosePass t = t := fencesCloseF_noop t.length true t htick'
  have e₆ : linksPass t = t := linksF_noop t.length t hbr'
  have e₇ : quotePass t = t := quoteF_noop t.length true t hquote
  have e₈ : ulistPass t = t := ulistF_noop t.length true t hstar' hulist
  have e₉ : olistPass t = t := rfl
  have e₁₀ : hrPass t = t := hrF_noop t.length true t hhr
  rw [e₁, e₂, e₃, e₄, e₅, e₆, e₇, e₈, e₉, e₁₀]

/-- C8: once the Markdown Degrader's output contains none of the `#`, `*`,
backtick, underscore, link, blockquote, list and horizontal-rule marker
constructs, applying the degrader a second time is stable:
`to_plain_text (to_plain_text c) = to_plain_text c`. -/
theorem c8_degrader_idempotent (c : List Char)
    (h : noMarkers (markdown_to_text c) = true) :
    markdown_to_text (markdown_to_text c) = markdown_to_text c := by
  by_cases hc : c.isEmpty = true
  · have : markdown_to_text c = [] := by
      unfold markdown_to_text
      rw [if_pos hc]
    rw [this]
    unfold markdown_to_text
    rfl
  · by_cases ht : (markdown_to_text c).isEmpty = true
    · have : markdown_to_text c = [] := by
        cases hmt : markdown_to_text c with
        | nil => rfl
        | cons x xs => rw [hmt] at ht; simp at ht
      rw [this]
      unfold markdown_to_text
      rfl
    · rw [markdown_to_text_ne_nil ht, passes_noop h]
      have hX := markdown_to_text_ne_nil hc
      set X := hrPass (olistPass (ulistPass (quotePass (linksPass
        (fencesClosePass (fencesOpenPass (inlineCodePass
          (emphasisPasses (headersPass c))))))))) with hXdef
      have hnm : noMatch (markdown_to_text c) = true := by
        rw [hX]
        refine noMatch_pyStrip _ ?_
        unfold cleanupPass
        exact noMatch_cleanupF X.length X (le_refl _)
      have hclean : cleanupPass (markdown_to_text c) = markdown_to_text c := by
        unfold cleanupPass
        exact noMatch_cleanupF_id _ _ hnm
      rw [hclean, hX, pyStrip_idem, ← hX]

theorem c8_witness :
    noMarkers (markdown_to_text (cs "hello world")) = true ∧
    markdown_to_text (markdown_to_text (cs "hello world")) =
      markdown_to_text (cs "hello world") :=
  ⟨by decide, c8_degrader_idempotent (cs "hello world") (by decide)⟩

end PromptEditor
